import Mathlib

/-!
Verification of the `Stream` transport event machine from
`src/transports/stream.rs` of the `rotor` repository.

The Rust code drives one non-blocking duplex connection: it owns a socket,
an inbound and an outbound byte buffer and two cached readiness flags, and
on every `ready(evset)` notification it runs three phases (conditional
flush, conditional fill, opportunistic flush), invoking the pluggable
`Protocol` state machine through a `Transport` view of the two buffers.

Shallow embedding choices:
* Bytes are `Nat`; buffers are `List Nat` (append at the back, consume at
  the front), mirroring the external `netbuf::Buf` queue.
* The non-blocking socket is modelled by two finite scripts of transfer
  outcomes, one per direction (`rq` for `read_from`, `wq` for `write_to`);
  each transfer attempt consumes the head of the script.  An exhausted
  script behaves like a socket that would block (the conventional closure
  of a finite outcome trace).  A read outcome carries the bytes actually
  transferred, so `ReadRes.ok []` is Rust's `Ok(0)` (peer closed); a write
  outcome carries the reported byte count, so `WriteRes.ok 0` is `Ok(0)`.
* The `Protocol` trait is a record of pure functions; `&mut` arguments
  become explicit state passing (each callback returns the updated
  transport and context together with the `Async` continuation).
* Every run additionally produces a ghost trace of events (socket attempt
  outcomes, flag assignments, protocol invocations) used only to state
  properties; the trace does not influence the computation.
-/

namespace Rotor

/-- Outcome of one `inbuf.read_from(&mut socket)` attempt.  `ok chunk` is
Rust's `Ok(n)` with `chunk` the `n` bytes appended to the inbound buffer
(`chunk = []` is `Ok(0)`, i.e. the peer closed); the error kinds mirror
`WouldBlock`, `Interrupted` and any other `io::Error` (carried as a code). -/
inductive ReadRes where
  | ok (chunk : List Nat)
  | wouldBlock
  | interrupted
  | err (e : Nat)
deriving DecidableEq

/-- Outcome of one `outbuf.write_to(&mut socket)` attempt.  `ok n` is
Rust's `Ok(n)`: `n` bytes were taken from the front of the outbound
buffer (`n = 0` meaning the connection closed). -/
inductive WriteRes where
  | ok (n : Nat)
  | wouldBlock
  | interrupted
  | err (e : Nat)
deriving DecidableEq

/-- The buffer view handed to protocol callbacks (`Transport<'a>` in the
source): the inbound and outbound buffers, nothing else — in particular no
socket. -/
structure Transport where
  inbuf : List Nat
  outbuf : List Nat
deriving DecidableEq

/-- The readiness notification (`mio::EventSet`), reduced to the two bits
the code consults. -/
structure EventSet where
  is_readable : Bool
  is_writable : Bool
deriving DecidableEq

/-- The continuation algebra.  Modelled from the spec: `Async<M, R>` is
defined in the crate root (`lib.rs`), which is not part of the packaged
sources; the spec describes it as a tagged outcome, continue with updated
machine and value, or stop, with short-circuiting chaining (`async_try!`
returns `Stop` early, `and_then` runs only while continuing, `done` fires
a terminal callback on a still-continuing machine).  The constructor
`cont` stands for Rust's `Continue`. -/
inductive Async (M : Type u) (R : Type v) where
  | cont (machine : M) (result : R)
  | stop
deriving DecidableEq

/-- Result of one protocol data callback: in Rust the callback gets
`&mut Transport` and `&mut C` and returns `Async<Self, ()>`; here the
mutated transport and context are returned explicitly next to the
continuation. -/
structure CbOut (σ χ : Type) where
  trans : Transport
  ctx : χ
  next : Async σ Unit
deriving DecidableEq

/-- The `Protocol<C>` trait (lines 168-187 of the source) as a record of
pure functions over an opaque state `σ` and context `χ`.  `accepted` takes
`&mut C` and may reject (it also receives `&mut S`; socket mutation during
accept is not modelled, no claim depends on it).  `error_happened` and
`eof_received` are terminal: they consume the state and only the context
survives.  `timeout`/`wakeup` are not modelled (no claim mentions them). -/
structure Protocol (σ χ : Type) where
  accepted : χ → χ × Option σ
  data_received : σ → Transport → χ → CbOut σ χ
  data_transferred : σ → Transport → χ → CbOut σ χ
  error_happened : σ → Nat → χ → χ
  eof_received : σ → χ → χ

/-- The connection-owned state `Inner<S>` minus the socket (the socket is
the pair of outcome scripts carried in `Stream`): the two buffers and the
two cached readiness flags. -/
structure Inner where
  inbuf : List Nat
  outbuf : List Nat
  writable : Bool
  readable : Bool
deriving DecidableEq

/-- `Inner::transport` (lines 33-40): the view handed to callbacks is
built from exactly the two buffers. -/
def Inner.transport (st : Inner) : Transport :=
  { inbuf := st.inbuf, outbuf := st.outbuf }

/-- The whole connection `Stream<C, S, P>`: socket scripts, buffers and
flags, and the current protocol state. -/
structure Stream (σ : Type) where
  rq : List ReadRes
  wq : List WriteRes
  inner : Inner
  fsm : σ
deriving DecidableEq

/-- Ghost trace events of one entry-point run: socket attempt outcomes,
cached-flag assignments, and protocol invocations.  A data event records
the transport the callback observed (`seen`) and the one it returned
(`after`).  Interrupted attempts are retried by a bare `continue` in the
source and leave no observable action, so they produce no event. -/
inductive Ev where
  | data_received (seen after : Transport)
  | data_transferred (seen after : Transport)
  | eof_received
  | error_happened (e : Nat)
  | read_ok (chunk : List Nat)
  | read_wb
  | read_err (e : Nat)
  | write_ok (n : Nat)
  | write_wb
  | write_err (e : Nat)
  | set_readable (b : Bool)
  | set_writable (b : Bool)
deriving DecidableEq

/-- Result of the write loop (phases A and C) for the enclosing `ready`
call: either control flows on to the next phase with the leftover write
script, updated state, protocol machine and context, or the loop executed
`return Async::Stop` (dropping connection and machine; only the borrowed
context survives). -/
inductive WOut (σ χ : Type) where
  | flow (wq : List WriteRes) (st : Inner) (fsm : σ) (ctx : χ)
  | halt (ctx : χ)
deriving DecidableEq

/-- Result of the read loop (phase B), analogous to `WOut`. -/
inductive ROut (σ χ : Type) where
  | flow (rq : List ReadRes) (st : Inner) (fsm : σ) (ctx : χ)
  | halt (ctx : χ)
deriving DecidableEq

variable {σ χ : Type}

/-- The `while stream.outbuf.len() > 0 { match stream.outbuf.write_to(..) }`
loop of phase A (source lines 68-90), textually repeated as phase C (lines
119-141).  Each iteration first re-checks the loop condition, then consumes
one scripted outcome: `Ok(0)` fires `eof_received` and stops; `Ok(n)` drops
`n` bytes from the front of the outbound buffer and runs `data_transferred`
on the updated transport (stopping if the protocol stops); `WouldBlock`
clears the cached writable flag and breaks; `Interrupted` retries
immediately; any other error fires `error_happened` and stops.  An
exhausted script behaves as `WouldBlock`. -/
def writeLoopGo (p : Protocol σ χ) : List WriteRes → Inner → σ → χ → List Ev × WOut σ χ
  | [], st, fsm, ctx =>
      if st.outbuf = [] then ([], .flow [] st fsm ctx)
      else ([Ev.write_wb, Ev.set_writable false],
            .flow [] { st with writable := false } fsm ctx)
  | .ok n :: rest, st, fsm, ctx =>
      if st.outbuf = [] then ([], .flow (WriteRes.ok n :: rest) st fsm ctx)
      else if n = 0 then
        ([Ev.write_ok 0, Ev.eof_received], .halt (p.eof_received fsm ctx))
      else
        match p.data_transferred fsm (Inner.transport { st with outbuf := st.outbuf.drop n }) ctx with
        | ⟨tcb, ctx1, .stop⟩ =>
            ([Ev.write_ok n,
              Ev.data_transferred (Inner.transport { st with outbuf := st.outbuf.drop n }) tcb],
             .halt ctx1)
        | ⟨tcb, ctx1, .cont fsm1 _⟩ =>
            let r := writeLoopGo p rest { st with inbuf := tcb.inbuf, outbuf := tcb.outbuf } fsm1 ctx1
            (Ev.write_ok n ::
             Ev.data_transferred (Inner.transport { st with outbuf := st.outbuf.drop n }) tcb :: r.1,
             r.2)
  | .wouldBlock :: rest, st, fsm, ctx =>
      if st.outbuf = [] then ([], .flow (WriteRes.wouldBlock :: rest) st fsm ctx)
      else ([Ev.write_wb, Ev.set_writable false],
            .flow rest { st with writable := false } fsm ctx)
  | .interrupted :: rest, st, fsm, ctx =>
      if st.outbuf = [] then ([], .flow (WriteRes.interrupted :: rest) st fsm ctx)
      else writeLoopGo p rest st fsm ctx
  | .err e :: rest, st, fsm, ctx =>
      if st.outbuf = [] then ([], .flow (WriteRes.err e :: rest) st fsm ctx)
      else ([Ev.write_err e, Ev.error_happened e], .halt (p.error_happened fsm e ctx))

/-- The `loop { match stream.inbuf.read_from(..) }` of phase B (source
lines 94-116): `Ok(0)` fires `eof_received` and stops; `Ok(n)` appends the
`n` read bytes to the inbound buffer and runs `data_received` on the
updated transport (stopping if the protocol stops); `WouldBlock` clears
the cached readable flag and breaks; `Interrupted` retries immediately;
any other error fires `error_happened` and stops.  An exhausted script
behaves as `WouldBlock`. -/
def readLoopGo (p : Protocol σ χ) : List ReadRes → Inner → σ → χ → List Ev × ROut σ χ
  | [], st, fsm, ctx =>
      ([Ev.read_wb, Ev.set_readable false],
       .flow [] { st with readable := false } fsm ctx)
  | .ok c :: rest, st, fsm, ctx =>
      if c = [] then ([Ev.read_ok [], Ev.eof_received], .halt (p.eof_received fsm ctx))
      else
        match p.data_received fsm (Inner.transport { st with inbuf := st.inbuf ++ c }) ctx with
        | ⟨tcb, ctx1, .stop⟩ =>
            ([Ev.read_ok c,
              Ev.data_received (Inner.transport { st with inbuf := st.inbuf ++ c }) tcb],
             .halt ctx1)
        | ⟨tcb, ctx1, .cont fsm1 _⟩ =>
            let r := readLoopGo p rest { st with inbuf := tcb.inbuf, outbuf := tcb.outbuf } fsm1 ctx1
            (Ev.read_ok c ::
             Ev.data_received (Inner.transport { st with inbuf := st.inbuf ++ c }) tcb :: r.1,
             r.2)
  | .wouldBlock :: rest, st, fsm, ctx =>
      ([Ev.read_wb, Ev.set_readable false],
       .flow rest { st with readable := false } fsm ctx)
  | .interrupted :: rest, st, fsm, ctx => readLoopGo p rest st fsm ctx
  | .err e :: rest, st, fsm, ctx =>
      ([Ev.read_err e, Ev.error_happened e], .halt (p.error_happened fsm e ctx))

/-- Phase A, the conditional flush (source lines 66-91): only if the event
set marks writable and the outbound buffer is non-empty, set the cached
writable flag and run the write loop. -/
def phaseA (p : Protocol σ χ) (evset : EventSet) (wq : List WriteRes)
    (st : Inner) (fsm : σ) (ctx : χ) : List Ev × WOut σ χ :=
  if evset.is_writable ∧ st.outbuf ≠ [] then
    let r := writeLoopGo p wq { st with writable := true } fsm ctx
    (Ev.set_writable true :: r.1, r.2)
  else ([], .flow wq st fsm ctx)

/-- Phase B, the conditional fill (source lines 92-117): only if the event
set marks readable, set the cached readable flag and run the read loop. -/
def phaseB (p : Protocol σ χ) (evset : EventSet) (rq : List ReadRes)
    (st : Inner) (fsm : σ) (ctx : χ) : List Ev × ROut σ χ :=
  if evset.is_readable then
    let r := readLoopGo p rq { st with readable := true } fsm ctx
    (Ev.set_readable true :: r.1, r.2)
  else ([], .flow rq st fsm ctx)

/-- Phase C, the opportunistic flush (source lines 118-142): if the cached
writable flag is still set and the outbound buffer is non-empty, repeat
the write loop regardless of the event set; no flag is set on entry. -/
def phaseC (p : Protocol σ χ) (wq : List WriteRes)
    (st : Inner) (fsm : σ) (ctx : χ) : List Ev × WOut σ χ :=
  if st.writable ∧ st.outbuf ≠ [] then writeLoopGo p wq st fsm ctx
  else ([], .flow wq st fsm ctx)

/-- `Stream::ready` (source lines 61-146): run phase A, then phase B, then
phase C, any `return Async::Stop` short-circuiting the rest; if no phase
stops, rebuild the stream from the updated state and report
`Continue(stream, None)`.  Returns the ghost trace, the final context and
the `Async` result. -/
def ready (p : Protocol σ χ) (evset : EventSet) (s : Stream σ) (ctx : χ) :
    List Ev × χ × Async (Stream σ) (Option (Stream σ)) :=
  match phaseA p evset s.wq s.inner s.fsm ctx with
  | (trA, .halt ctx1) => (trA, ctx1, .stop)
  | (trA, .flow wq1 st1 fsm1 ctx1) =>
    match phaseB p evset s.rq st1 fsm1 ctx1 with
    | (trB, .halt ctx2) => (trA ++ trB, ctx2, .stop)
    | (trB, .flow rq2 st2 fsm2 ctx2) =>
      match phaseC p wq1 st2 fsm2 ctx2 with
      | (trC, .halt ctx3) => (trA ++ (trB ++ trC), ctx3, .stop)
      | (trC, .flow wq3 st3 fsm3 ctx3) =>
        (trA ++ (trB ++ trC), ctx3, .cont ⟨rq2, wq3, st3, fsm3⟩ none)

/-- `Stream::accept` (source lines 42-58): invoke `Protocol::accepted`; on
rejection return `None`; on acceptance wrap the socket with two empty
buffers, cached `readable = false` and `writable = true`. -/
def accept (p : Protocol σ χ) (rq : List ReadRes) (wq : List WriteRes) (ctx : χ) :
    χ × Option (Stream σ) :=
  match p.accepted ctx with
  | (ctx1, none) => (ctx1, none)
  | (ctx1, some fsm) =>
      (ctx1, some ⟨rq, wq, { inbuf := [], outbuf := [], writable := true, readable := false }, fsm⟩)

/-- A protocol that accepts (counting acceptances in the context), leaves
both buffers untouched in every data callback and always continues: used
as a concrete instance in witnesses. -/
def unitProto : Protocol Unit Nat where
  accepted := fun c => (c + 1, some ())
  data_received := fun _ t c => ⟨t, c, .cont () ()⟩
  data_transferred := fun _ t c => ⟨t, c, .cont () ()⟩
  error_happened := fun _ _ c => c
  eof_received := fun _ c => c

/-- A protocol whose `data_received` appends one byte of output and
continues: used for runs in which phase B replenishes the outbound
buffer. -/
def pushProto : Protocol Unit Nat where
  accepted := fun c => (c, some ())
  data_received := fun _ t c => ⟨⟨t.inbuf, t.outbuf ++ [9]⟩, c, .cont () ()⟩
  data_transferred := fun _ t c => ⟨t, c, .cont () ()⟩
  error_happened := fun _ _ c => c
  eof_received := fun _ c => c

/-!
### Trace observables

Decidable, executable functions over the ghost trace used to state the
claims: terminal-notification count, bytes reported by read transfers,
bytes consumed by `data_received` invocations, and a replay of the buffer
evolution an observer can reconstruct from the trace alone.
-/

/-- Terminal notifications (`eof_received` / `error_happened`). -/
def isTermEv : Ev → Bool
  | .eof_received => true
  | .error_happened _ => true
  | _ => false

/-- Number of terminal notifications in a trace. -/
def termCount (tr : List Ev) : Nat := (tr.filter isTermEv).length

/-- Nothing at all happens after a terminal notification. -/
def TermLast (tr : List Ev) : Prop :=
  ∀ pre ev post, tr = pre ++ ev :: post → isTermEv ev = true → post = []

/-- Bytes reported by the successful read transfers of a trace, in order. -/
def readBytes : List Ev → List Nat
  | [] => []
  | .read_ok c :: r => c ++ readBytes r
  | _ :: r => readBytes r

/-- Total number of bytes the read transfers of a trace reported. -/
def readTotal (tr : List Ev) : Nat := (readBytes tr).length

/-- Total number of bytes the `data_received` invocations of a trace
consumed (length drop between the observed and the returned inbound
buffer). -/
def consumedTotal : List Ev → Nat
  | [] => 0
  | .data_received seen after :: r =>
      (seen.inbuf.length - after.inbuf.length) + consumedTotal r
  | _ :: r => consumedTotal r

/-- Effect of one trace event on the buffer pair: core transfers move
bytes, data callbacks replace the pair by the transport they returned,
everything else leaves the buffers alone. -/
def stepEv (t : Transport) : Ev → Transport
  | .read_ok c => { t with inbuf := t.inbuf ++ c }
  | .write_ok n => { t with outbuf := t.outbuf.drop n }
  | .data_received _ after => after
  | .data_transferred _ after => after
  | _ => t

/-- Replay the buffer evolution recorded in a trace. -/
def replay (t : Transport) : List Ev → Transport
  | [] => t
  | e :: r => replay (stepEv t e) r

/-- Every data callback of the trace observed exactly the buffer pair
obtained by replaying the preceding events from `t0`: the view handed to
the protocol is constructed from the connection's two buffers and nothing
else. -/
def DataOk (t0 : Transport) (tr : List Ev) : Prop :=
  ∀ pre seen after post,
    (tr = pre ++ Ev.data_received seen after :: post ∨
     tr = pre ++ Ev.data_transferred seen after :: post) →
    seen = replay t0 pre

/-- Byte accounting for `data_received`: every invocation observes a
suffix of base-plus-transferred whose length is base plus bytes
transferred so far minus bytes consumed so far. -/
def RecvChain (i0 : List Nat) (tr : List Ev) : Prop :=
  ∀ pre seen after post, tr = pre ++ Ev.data_received seen after :: post →
    seen.inbuf.length + consumedTotal pre = i0.length + readTotal pre ∧
    seen.inbuf <:+ i0 ++ readBytes pre

/-- Events the write loop (and phase A/C) can emit. -/
def wlEv : Ev → Bool
  | .write_ok _ => true
  | .write_wb => true
  | .write_err _ => true
  | .set_writable _ => true
  | .data_transferred _ _ => true
  | .eof_received => true
  | .error_happened _ => true
  | _ => false

/-- Events the read loop (and phase B) can emit. -/
def rlEv : Ev → Bool
  | .read_ok _ => true
  | .read_wb => true
  | .read_err _ => true
  | .set_readable _ => true
  | .data_received _ _ => true
  | .eof_received => true
  | .error_happened _ => true
  | _ => false

/-!
### Generic trace lemmas
-/

lemma termCount_nil : termCount [] = 0 := rfl

lemma termCount_cons (e : Ev) (tr : List Ev) :
    termCount (e :: tr) = (if isTermEv e then 1 else 0) + termCount tr := by
  by_cases h : isTermEv e <;> simp [termCount, List.filter, h] <;> omega

lemma termCount_append (a b : List Ev) :
    termCount (a ++ b) = termCount a + termCount b := by
  simp [termCount, List.filter_append]

lemma no_term_of_termCount_zero {tr : List Ev} (h : termCount tr = 0) :
    ∀ e ∈ tr, isTermEv e = false := by
  intro e he
  cases hx : isTermEv e
  · rfl
  · exfalso
    have hmem : e ∈ tr.filter isTermEv := List.mem_filter.2 ⟨he, hx⟩
    have hpos : 0 < (tr.filter isTermEv).length := List.length_pos_of_mem hmem
    simp only [termCount] at h
    omega

lemma count_eof_zero_of_termCount_zero {tr : List Ev} (h : termCount tr = 0) :
    tr.count Ev.eof_received = 0 := by
  refine List.count_eq_zero.2 ?_
  intro hmem
  have := no_term_of_termCount_zero h _ hmem
  simp [isTermEv] at this

lemma readBytes_append (a b : List Ev) :
    readBytes (a ++ b) = readBytes a ++ readBytes b := by
  induction a with
  | nil => simp [readBytes]
  | cons e r ih => cases e <;> simp [readBytes, ih]

lemma consumedTotal_append (a b : List Ev) :
    consumedTotal (a ++ b) = consumedTotal a + consumedTotal b := by
  induction a with
  | nil => simp [consumedTotal]
  | cons e r ih => cases e <;> simp [consumedTotal, ih] <;> omega

lemma replay_append (t0 : Transport) (a b : List Ev) :
    replay t0 (a ++ b) = replay (replay t0 a) b := by
  induction a generalizing t0 with
  | nil => simp [replay]
  | cons e r ih => simp [replay, ih]

lemma suffix_append_both {α : Type u} {l1 l2 : List α} (h : l1 <:+ l2) (l3 : List α) :
    l1 ++ l3 <:+ l2 ++ l3 := by
  obtain ⟨t, rfl⟩ := h
  exact ⟨t, by simp⟩

/-- Decompose an equation `e :: tr = pre ++ ev :: post`. -/
lemma cons_decomp {e : Ev} {tr pre post : List Ev} {ev : Ev}
    (h : e :: tr = pre ++ ev :: post) :
    (pre = [] ∧ ev = e ∧ post = tr) ∨
    (∃ pre1, pre = e :: pre1 ∧ tr = pre1 ++ ev :: post) := by
  cases pre with
  | nil =>
    simp only [List.nil_append, List.cons.injEq] at h
    exact Or.inl ⟨rfl, h.1.symm, h.2.symm⟩
  | cons x pre1 =>
    simp only [List.cons_append, List.cons.injEq] at h
    refine Or.inr ⟨pre1, ?_, h.2⟩
    rw [h.1]

/-- Decompose an equation `l1 ++ l2 = pre ++ ev :: post`: the
distinguished element lies in `l1` or in `l2`. -/
lemma append_decomp {l1 l2 pre post : List Ev} {ev : Ev}
    (h : l1 ++ l2 = pre ++ ev :: post) :
    (∃ mid, l1 = pre ++ ev :: mid ∧ post = mid ++ l2) ∨
    (∃ preR, pre = l1 ++ preR ∧ l2 = preR ++ ev :: post) := by
  rcases List.append_eq_append_iff.1 h with ⟨a1, ha, hb⟩ | ⟨c1, hc, hd⟩
  · exact Or.inr ⟨a1, ha, hb⟩
  · cases c1 with
    | nil =>
      refine Or.inr ⟨[], by simp [hc], ?_⟩
      simpa using hd.symm
    | cons x c2 =>
      simp only [List.cons_append, List.cons.injEq] at hd
      refine Or.inl ⟨c2, ?_, hd.2⟩
      rw [hc, hd.1]

/-- Split a decomposition of `l1 ++ l2` at an element no member of `l1`
can be. -/
lemma split_skip {Q : Ev → Prop} {l1 l2 pre post : List Ev} {ev : Ev}
    (h : l1 ++ l2 = pre ++ ev :: post) (h1 : ∀ e ∈ l1, ¬ Q e) (hQ : Q ev) :
    ∃ preR, pre = l1 ++ preR ∧ l2 = preR ++ ev :: post := by
  rcases append_decomp h with ⟨mid, hm, _⟩ | ⟨preR, hp, hq⟩
  · exact absurd hQ (h1 ev (by simp [hm]))
  · exact ⟨preR, hp, hq⟩

lemma termLast_nil : TermLast [] := by
  intro pre ev post hdec hterm
  exact absurd hdec.symm (by simp)

lemma termLast_of_no_term {tr : List Ev} (h : ∀ e ∈ tr, isTermEv e = false) :
    TermLast tr := by
  intro pre ev post hdec hterm
  have hmem : ev ∈ tr := by simp [hdec]
  rw [h ev hmem] at hterm
  exact absurd hterm (by simp)

lemma termLast_cons {e : Ev} {tr : List Ev} (he : isTermEv e = false)
    (h : TermLast tr) : TermLast (e :: tr) := by
  intro pre ev post hdec hterm
  rcases cons_decomp hdec with ⟨_, hev, _⟩ | ⟨pre1, _, hq⟩
  · rw [hev, he] at hterm
    exact absurd hterm (by simp)
  · exact h pre1 ev post hq hterm

lemma termLast_single (e : Ev) : TermLast [e] := by
  intro pre ev post hdec hterm
  rcases cons_decomp hdec with ⟨_, _, hpost⟩ | ⟨pre1, _, hq⟩
  · exact hpost
  · exact absurd hq.symm (by simp)

lemma termLast_pair {e1 e2 : Ev} (he : isTermEv e1 = false) : TermLast [e1, e2] :=
  termLast_cons he (termLast_single e2)

lemma termLast_append {tr1 tr2 : List Ev}
    (h1 : ∀ e ∈ tr1, isTermEv e = false) (h2 : TermLast tr2) :
    TermLast (tr1 ++ tr2) := by
  intro pre ev post hdec hterm
  obtain ⟨preR, hp, hq⟩ :=
    split_skip (Q := fun e => isTermEv e = true) hdec
      (by intro e he hc; rw [h1 e he] at hc; exact absurd hc (by simp)) hterm
  exact h2 preR ev post hq hterm

lemma dataOk_nil (t0 : Transport) : DataOk t0 [] := by
  intro pre seen after post hdec
  rcases hdec with h | h <;> exact absurd h.symm (by simp)

lemma dataOk_cons {t0 : Transport} {e : Ev} {tr : List Ev}
    (he : ∀ seen after,
      (e = Ev.data_received seen after ∨ e = Ev.data_transferred seen after) →
      seen = t0)
    (h : DataOk (stepEv t0 e) tr) : DataOk t0 (e :: tr) := by
  intro pre seen after post hdec
  rcases hdec with hd | hd
  · rcases cons_decomp hd with ⟨hp, hev, _⟩ | ⟨pre1, hp, hq⟩
    · subst hp
      simp only [replay]
      exact he seen after (Or.inl hev.symm)
    · subst hp
      have := h pre1 seen after post (Or.inl hq)
      simpa [replay] using this
  · rcases cons_decomp hd with ⟨hp, hev, _⟩ | ⟨pre1, hp, hq⟩
    · subst hp
      simp only [replay]
      exact he seen after (Or.inr hev.symm)
    · subst hp
      have := h pre1 seen after post (Or.inr hq)
      simpa [replay] using this

lemma dataOk_append {t0 : Transport} {tr1 tr2 : List Ev}
    (h1 : DataOk t0 tr1) (h2 : DataOk (replay t0 tr1) tr2) :
    DataOk t0 (tr1 ++ tr2) := by
  intro pre seen after post hdec
  rcases hdec with hd | hd
  · rcases append_decomp hd with ⟨mid, hm, _⟩ | ⟨preR, hp, hq⟩
    · exact h1 pre seen after mid (Or.inl hm)
    · subst hp
      have := h2 preR seen after post (Or.inl hq)
      simpa [replay_append] using this
  · rcases append_decomp hd with ⟨mid, hm, _⟩ | ⟨preR, hp, hq⟩
    · exact h1 pre seen after mid (Or.inr hm)
    · subst hp
      have := h2 preR seen after post (Or.inr hq)
      simpa [replay_append] using this

/-!
### Write-loop invariants
-/

lemma writeLoopGo_events (p : Protocol σ χ) :
    ∀ (wq : List WriteRes) (st : Inner) (fsm : σ) (ctx : χ),
      ∀ e ∈ (writeLoopGo p wq st fsm ctx).1, wlEv e = true := by
  intro wq
  induction wq with
  | nil =>
    intro st fsm ctx e he
    by_cases ho : st.outbuf = []
    · simp [writeLoopGo, ho] at he
    · simp [writeLoopGo, ho] at he
      rcases he with rfl | rfl <;> rfl
  | cons w rest ih =>
    intro st fsm ctx e he
    cases w with
    | ok n =>
      by_cases ho : st.outbuf = []
      · simp [writeLoopGo, ho] at he
      · by_cases hn : n = 0
        · simp [writeLoopGo, ho, hn] at he
          rcases he with rfl | rfl <;> rfl
        · rcases hcb : p.data_transferred fsm
              (Inner.transport { st with outbuf := st.outbuf.drop n }) ctx with ⟨tcb, ctx1, nx⟩
          cases nx with
          | stop =>
            simp [writeLoopGo, ho, hn, hcb] at he
            rcases he with rfl | rfl <;> rfl
          | cont fsm1 u =>
            simp [writeLoopGo, ho, hn, hcb] at he
            rcases he with rfl | rfl | hmem
            · rfl
            · rfl
            · exact ih _ _ _ e hmem
    | wouldBlock =>
      by_cases ho : st.outbuf = []
      · simp [writeLoopGo, ho] at he
      · simp [writeLoopGo, ho] at he
        rcases he with rfl | rfl <;> rfl
    | interrupted =>
      by_cases ho : st.outbuf = []
      · simp [writeLoopGo, ho] at he
      · simp only [writeLoopGo, if_neg ho] at he
        exact ih _ _ _ e he
    | err er =>
      by_cases ho : st.outbuf = []
      · simp [writeLoopGo, ho] at he
      · simp [writeLoopGo, ho] at he
        rcases he with rfl | rfl <;> rfl

lemma termCount_cons_nonterm {e : Ev} (he : isTermEv e = false) (tr : List Ev) :
    termCount (e :: tr) = termCount tr := by
  rw [termCount_cons, he]
  simp

lemma termCount_write_ok (n : Nat) (tr : List Ev) :
    termCount (Ev.write_ok n :: tr) = termCount tr := by
  apply termCount_cons_nonterm
  rfl

lemma termCount_read_ok (c : List Nat) (tr : List Ev) :
    termCount (Ev.read_ok c :: tr) = termCount tr := by
  apply termCount_cons_nonterm
  rfl

lemma termCount_data_transferred (s a : Transport) (tr : List Ev) :
    termCount (Ev.data_transferred s a :: tr) = termCount tr := by
  apply termCount_cons_nonterm
  rfl

lemma termCount_data_received (s a : Transport) (tr : List Ev) :
    termCount (Ev.data_received s a :: tr) = termCount tr := by
  apply termCount_cons_nonterm
  rfl

lemma termCount_write_err (er : Nat) (tr : List Ev) :
    termCount (Ev.write_err er :: tr) = termCount tr := by
  apply termCount_cons_nonterm
  rfl

lemma termCount_read_err (er : Nat) (tr : List Ev) :
    termCount (Ev.read_err er :: tr) = termCount tr := by
  apply termCount_cons_nonterm
  rfl

lemma termCount_set_writable (b : Bool) (tr : List Ev) :
    termCount (Ev.set_writable b :: tr) = termCount tr := by
  apply termCount_cons_nonterm
  rfl

lemma termCount_set_readable (b : Bool) (tr : List Ev) :
    termCount (Ev.set_readable b :: tr) = termCount tr := by
  apply termCount_cons_nonterm
  rfl

lemma termCount_write_wb (tr : List Ev) :
    termCount (Ev.write_wb :: tr) = termCount tr := by
  apply termCount_cons_nonterm
  rfl

lemma termCount_read_wb (tr : List Ev) :
    termCount (Ev.read_wb :: tr) = termCount tr := by
  apply termCount_cons_nonterm
  rfl

lemma termCount_eof (tr : List Ev) :
    termCount (Ev.eof_received :: tr) = 1 + termCount tr := by
  rw [termCount_cons]
  simp [isTermEv]

lemma termCount_error (er : Nat) (tr : List Ev) :
    termCount (Ev.error_happened er :: tr) = 1 + termCount tr := by
  rw [termCount_cons]
  simp [isTermEv]

lemma writeLoopGo_term (p : Protocol σ χ) :
    ∀ (wq : List WriteRes) (st : Inner) (fsm : σ) (ctx : χ),
      termCount (writeLoopGo p wq st fsm ctx).1 ≤ 1 ∧
      TermLast (writeLoopGo p wq st fsm ctx).1 ∧
      (∀ wq1 st1 fsm1 ctx1,
        (writeLoopGo p wq st fsm ctx).2 = WOut.flow wq1 st1 fsm1 ctx1 →
        termCount (writeLoopGo p wq st fsm ctx).1 = 0) := by
  intro wq
  induction wq with
  | nil =>
    intro st fsm ctx
    by_cases ho : st.outbuf = [] <;>
      simp only [writeLoopGo, ho, if_true, if_false, reduceIte] <;>
      exact ⟨by decide, termLast_of_no_term (by decide), by intro a b c d h; decide⟩
  | cons w rest ih =>
    intro st fsm ctx
    cases w with
    | ok n =>
      by_cases ho : st.outbuf = []
      · simp only [writeLoopGo, ho, reduceIte]
        exact ⟨by decide, termLast_of_no_term (by decide), by intro a b c d h; decide⟩
      · by_cases hn : n = 0
        · simp only [writeLoopGo, ho, hn, reduceIte]
          refine ⟨by decide, termLast_pair (by decide), ?_⟩
          intro a b c d h
          simp at h
        · rcases hcb : p.data_transferred fsm
              (Inner.transport { st with outbuf := st.outbuf.drop n }) ctx with ⟨tcb, ctx1, nx⟩
          cases nx with
          | stop =>
            simp only [writeLoopGo, ho, hn, hcb, reduceIte]
            refine ⟨?_, termLast_pair rfl, ?_⟩
            · rw [termCount_write_ok, termCount_data_transferred, termCount_nil]
              exact Nat.zero_le 1
            · intro a b c d h
              simp at h
          | cont fsm1 u =>
            have IH := ih { st with inbuf := tcb.inbuf, outbuf := tcb.outbuf } fsm1 ctx1
            simp only [writeLoopGo, ho, hn, hcb, reduceIte]
            refine ⟨?_, ?_, ?_⟩
            · rw [termCount_write_ok, termCount_data_transferred]
              exact IH.1
            · exact termLast_cons rfl (termLast_cons rfl IH.2.1)
            · intro a b c d h
              rw [termCount_write_ok, termCount_data_transferred]
              exact IH.2.2 a b c d h
    | wouldBlock =>
      by_cases ho : st.outbuf = [] <;>
        simp only [writeLoopGo, ho, reduceIte] <;>
        exact ⟨by decide, termLast_of_no_term (by decide), by intro a b c d h; decide⟩
    | interrupted =>
      by_cases ho : st.outbuf = []
      · simp only [writeLoopGo, ho, reduceIte]
        exact ⟨by decide, termLast_nil, by intro a b c d h; decide⟩
      · simp only [writeLoopGo, ho, reduceIte]
        exact ih st fsm ctx
    | err er =>
      by_cases ho : st.outbuf = []
      · simp only [writeLoopGo, ho, reduceIte]
        exact ⟨by decide, termLast_nil, by intro a b c d h; decide⟩
      · simp only [writeLoopGo, ho, reduceIte]
        refine ⟨?_, termLast_pair rfl, ?_⟩
        · rw [termCount_write_err, termCount_error, termCount_nil]
        · intro a b c d h
          simp at h

lemma writeLoopGo_flow (p : Protocol σ χ) :
    ∀ (wq : List WriteRes) (st : Inner) (fsm : σ) (ctx : χ)
      (wq1 : List WriteRes) (st1 : Inner) (fsm1 : σ) (ctx1 : χ),
      (writeLoopGo p wq st fsm ctx).2 = WOut.flow wq1 st1 fsm1 ctx1 →
      st1.readable = st.readable ∧
      (st1.writable = true → st.writable = true) ∧
      (st1.outbuf = [] ∨ st1.writable = false) ∧
      (Ev.write_wb ∈ (writeLoopGo p wq st fsm ctx).1 → st1.writable = false) := by
  intro wq
  induction wq with
  | nil =>
    intro st fsm ctx wq1 st1 fsm1 ctx1 h
    by_cases ho : st.outbuf = []
    · simp only [writeLoopGo, ho, reduceIte] at h ⊢
      injection h with h1 h2 h3 h4
      subst h2
      exact ⟨rfl, fun hx => hx, Or.inl ho, by simp⟩
    · simp only [writeLoopGo, ho, reduceIte] at h ⊢
      injection h with h1 h2 h3 h4
      subst h2
      exact ⟨rfl, by simp, Or.inr rfl, fun _ => rfl⟩
  | cons w rest ih =>
    intro st fsm ctx wq1 st1 fsm1 ctx1 h
    cases w with
    | ok n =>
      by_cases ho : st.outbuf = []
      · simp only [writeLoopGo, ho, reduceIte] at h ⊢
        injection h with h1 h2 h3 h4
        subst h2
        exact ⟨rfl, fun hx => hx, Or.inl ho, by simp⟩
      · by_cases hn : n = 0
        · simp only [writeLoopGo, ho, hn, reduceIte] at h
          simp at h
        · rcases hcb : p.data_transferred fsm
              (Inner.transport { st with outbuf := st.outbuf.drop n }) ctx with ⟨tcb, ctx1x, nx⟩
          cases nx with
          | stop =>
            simp only [writeLoopGo, ho, hn, hcb, reduceIte] at h
            simp at h
          | cont fsm1x u =>
            simp only [writeLoopGo, ho, hn, hcb, reduceIte] at h ⊢
            have IH := ih { st with inbuf := tcb.inbuf, outbuf := tcb.outbuf } fsm1x ctx1x
              wq1 st1 fsm1 ctx1 h
            refine ⟨IH.1, IH.2.1, IH.2.2.1, ?_⟩
            intro hmem
            simp only [List.mem_cons] at hmem
            rcases hmem with hx | hx | hx
            · exact absurd hx (by simp)
            · exact absurd hx (by simp)
            · exact IH.2.2.2 hx
    | wouldBlock =>
      by_cases ho : st.outbuf = []
      · simp only [writeLoopGo, ho, reduceIte] at h ⊢
        injection h with h1 h2 h3 h4
        subst h2
        exact ⟨rfl, fun hx => hx, Or.inl ho, by simp⟩
      · simp only [writeLoopGo, ho, reduceIte] at h ⊢
        injection h with h1 h2 h3 h4
        subst h2
        exact ⟨rfl, by simp, Or.inr rfl, fun _ => rfl⟩
    | interrupted =>
      by_cases ho : st.outbuf = []
      · simp only [writeLoopGo, ho, reduceIte] at h ⊢
        injection h with h1 h2 h3 h4
        subst h2
        exact ⟨rfl, fun hx => hx, Or.inl ho, by simp⟩
      · simp only [writeLoopGo, ho, reduceIte] at h ⊢
        exact ih st fsm ctx wq1 st1 fsm1 ctx1 h
    | err er =>
      by_cases ho : st.outbuf = []
      · simp only [writeLoopGo, ho, reduceIte] at h ⊢
        injection h with h1 h2 h3 h4
        subst h2
        exact ⟨rfl, fun hx => hx, Or.inl ho, by simp⟩
      · simp only [writeLoopGo, ho, reduceIte] at h
        simp at h

lemma writeLoopGo_ne (p : Protocol σ χ) :
    ∀ (wq : List WriteRes) (st : Inner) (fsm : σ) (ctx : χ),
      st.outbuf ≠ [] → (writeLoopGo p wq st fsm ctx).1 ≠ [] := by
  intro wq
  induction wq with
  | nil =>
    intro st fsm ctx ho
    simp [writeLoopGo, ho]
  | cons w rest ih =>
    intro st fsm ctx ho
    cases w with
    | ok n =>
      by_cases hn : n = 0
      · simp [writeLoopGo, ho, hn]
      · rcases hcb : p.data_transferred fsm
            (Inner.transport { st with outbuf := st.outbuf.drop n }) ctx with ⟨tcb, ctx1, nx⟩
        cases nx <;> simp [writeLoopGo, ho, hn, hcb]
    | wouldBlock => simp [writeLoopGo, ho]
    | interrupted =>
      simp only [writeLoopGo, ho, reduceIte]
      exact ih st fsm ctx ho
    | err er => simp [writeLoopGo, ho]

lemma writeLoopGo_inbuf (p : Protocol σ χ)
    (Ht : ∀ fsm t c, (p.data_transferred fsm t c).trans.inbuf = t.inbuf) :
    ∀ (wq : List WriteRes) (st : Inner) (fsm : σ) (ctx : χ)
      (wq1 : List WriteRes) (st1 : Inner) (fsm1 : σ) (ctx1 : χ),
      (writeLoopGo p wq st fsm ctx).2 = WOut.flow wq1 st1 fsm1 ctx1 →
      st1.inbuf = st.inbuf := by
  intro wq
  induction wq with
  | nil =>
    intro st fsm ctx wq1 st1 fsm1 ctx1 h
    by_cases ho : st.outbuf = [] <;>
      simp only [writeLoopGo, ho, reduceIte] at h <;>
      (injection h with h1 h2 h3 h4; subst h2; rfl)
  | cons w rest ih =>
    intro st fsm ctx wq1 st1 fsm1 ctx1 h
    cases w with
    | ok n =>
      by_cases ho : st.outbuf = []
      · simp only [writeLoopGo, ho, reduceIte] at h
        injection h with h1 h2 h3 h4
        subst h2
        rfl
      · by_cases hn : n = 0
        · simp only [writeLoopGo, ho, hn, reduceIte] at h
          simp at h
        · rcases hcb : p.data_transferred fsm
              (Inner.transport { st with outbuf := st.outbuf.drop n }) ctx with ⟨tcb, ctx1x, nx⟩
          cases nx with
          | stop =>
            simp only [writeLoopGo, ho, hn, hcb, reduceIte] at h
            simp at h
          | cont fsm1x u =>
            simp only [writeLoopGo, ho, hn, hcb, reduceIte] at h
            have IH := ih { st with inbuf := tcb.inbuf, outbuf := tcb.outbuf } fsm1x ctx1x
              wq1 st1 fsm1 ctx1 h
            have htc : tcb.inbuf = st.inbuf := by
              have hx := Ht fsm (Inner.transport { st with outbuf := st.outbuf.drop n }) ctx
              rw [hcb] at hx
              simpa [Inner.transport] using hx
            simpa [htc] using IH
    | wouldBlock =>
      by_cases ho : st.outbuf = [] <;>
        simp only [writeLoopGo, ho, reduceIte] at h <;>
        (injection h with h1 h2 h3 h4; subst h2; rfl)
    | interrupted =>
      by_cases ho : st.outbuf = []
      · simp only [writeLoopGo, ho, reduceIte] at h
        injection h with h1 h2 h3 h4
        subst h2
        rfl
      · simp only [writeLoopGo, ho, reduceIte] at h
        exact ih st fsm ctx wq1 st1 fsm1 ctx1 h
    | err er =>
      by_cases ho : st.outbuf = []
      · simp only [writeLoopGo, ho, reduceIte] at h
        injection h with h1 h2 h3 h4
        subst h2
        rfl
      · simp only [writeLoopGo, ho, reduceIte] at h
        simp at h

/-!
### Read-loop invariants
-/

lemma readLoopGo_events (p : Protocol σ χ) :
    ∀ (rq : List ReadRes) (st : Inner) (fsm : σ) (ctx : χ),
      ∀ e ∈ (readLoopGo p rq st fsm ctx).1, rlEv e = true := by
  intro rq
  induction rq with
  | nil =>
    intro st fsm ctx e he
    simp [readLoopGo] at he
    rcases he with rfl | rfl <;> rfl
  | cons r rest ih =>
    intro st fsm ctx e he
    cases r with
    | ok c =>
      by_cases hc : c = []
      · simp [readLoopGo, hc] at he
        rcases he with rfl | rfl <;> rfl
      · rcases hcb : p.data_received fsm
            (Inner.transport { st with inbuf := st.inbuf ++ c }) ctx with ⟨tcb, ctx1, nx⟩
        cases nx with
        | stop =>
          simp [readLoopGo, hc, hcb] at he
          rcases he with rfl | rfl <;> rfl
        | cont fsm1 u =>
          simp [readLoopGo, hc, hcb] at he
          rcases he with rfl | rfl | hmem
          · rfl
          · rfl
          · exact ih _ _ _ e hmem
    | wouldBlock =>
      simp [readLoopGo] at he
      rcases he with rfl | rfl <;> rfl
    | interrupted =>
      simp only [readLoopGo] at he
      exact ih _ _ _ e he
    | err er =>
      simp [readLoopGo] at he
      rcases he with rfl | rfl <;> rfl

lemma readLoopGo_term (p : Protocol σ χ) :
    ∀ (rq : List ReadRes) (st : Inner) (fsm : σ) (ctx : χ),
      termCount (readLoopGo p rq st fsm ctx).1 ≤ 1 ∧
      TermLast (readLoopGo p rq st fsm ctx).1 ∧
      (∀ rq1 st1 fsm1 ctx1,
        (readLoopGo p rq st fsm ctx).2 = ROut.flow rq1 st1 fsm1 ctx1 →
        termCount (readLoopGo p rq st fsm ctx).1 = 0) := by
  intro rq
  induction rq with
  | nil =>
    intro st fsm ctx
    simp only [readLoopGo]
    exact ⟨by decide, termLast_of_no_term (by decide), by intro a b c d h; decide⟩
  | cons r rest ih =>
    intro st fsm ctx
    cases r with
    | ok c =>
      by_cases hc : c = []
      · simp only [readLoopGo, hc, reduceIte]
        refine ⟨by decide, termLast_pair (by decide), ?_⟩
        intro a b c d h
        simp at h
      · rcases hcb : p.data_received fsm
            (Inner.transport { st with inbuf := st.inbuf ++ c }) ctx with ⟨tcb, ctx1, nx⟩
        cases nx with
        | stop =>
          simp only [readLoopGo, hc, hcb, reduceIte]
          refine ⟨?_, termLast_pair rfl, ?_⟩
          · rw [termCount_read_ok, termCount_data_received, termCount_nil]
            exact Nat.zero_le 1
          · intro a b c d h
            simp at h
        | cont fsm1 u =>
          have IH := ih { st with inbuf := tcb.inbuf, outbuf := tcb.outbuf } fsm1 ctx1
          simp only [readLoopGo, hc, hcb, reduceIte]
          refine ⟨?_, ?_, ?_⟩
          · rw [termCount_read_ok, termCount_data_received]
            exact IH.1
          · exact termLast_cons rfl (termLast_cons rfl IH.2.1)
          · intro a b c d h
            rw [termCount_read_ok, termCount_data_received]
            exact IH.2.2 a b c d h
    | wouldBlock =>
      simp only [readLoopGo]
      exact ⟨by decide, termLast_of_no_term (by decide), by intro a b c d h; decide⟩
    | interrupted =>
      simp only [readLoopGo]
      exact ih st fsm ctx
    | err er =>
      simp only [readLoopGo]
      refine ⟨?_, termLast_pair rfl, ?_⟩
      · rw [termCount_read_err, termCount_error, termCount_nil]
      · intro a b c d h
        simp at h

lemma readLoopGo_flow (p : Protocol σ χ) :
    ∀ (rq : List ReadRes) (st : Inner) (fsm : σ) (ctx : χ)
      (rq1 : List ReadRes) (st1 : Inner) (fsm1 : σ) (ctx1 : χ),
      (readLoopGo p rq st fsm ctx).2 = ROut.flow rq1 st1 fsm1 ctx1 →
      st1.writable = st.writable ∧ st1.readable = false := by
  intro rq
  induction rq with
  | nil =>
    intro st fsm ctx rq1 st1 fsm1 ctx1 h
    simp only [readLoopGo] at h
    injection h with h1 h2 h3 h4
    subst h2
    exact ⟨rfl, rfl⟩
  | cons r rest ih =>
    intro st fsm ctx rq1 st1 fsm1 ctx1 h
    cases r with
    | ok c =>
      by_cases hc : c = []
      · simp only [readLoopGo, hc, reduceIte] at h
        simp at h
      · rcases hcb : p.data_received fsm
            (Inner.transport { st with inbuf := st.inbuf ++ c }) ctx with ⟨tcb, ctx1x, nx⟩
        cases nx with
        | stop =>
          simp only [readLoopGo, hc, hcb, reduceIte] at h
          simp at h
        | cont fsm1x u =>
          simp only [readLoopGo, hc, hcb, reduceIte] at h
          exact ih { st with inbuf := tcb.inbuf, outbuf := tcb.outbuf } fsm1x ctx1x
            rq1 st1 fsm1 ctx1 h
    | wouldBlock =>
      simp only [readLoopGo] at h
      injection h with h1 h2 h3 h4
      subst h2
      exact ⟨rfl, rfl⟩
    | interrupted =>
      simp only [readLoopGo] at h
      exact ih st fsm ctx rq1 st1 fsm1 ctx1 h
    | err er =>
      simp only [readLoopGo] at h
      simp at h

lemma readLoopGo_outbuf (p : Protocol σ χ)
    (Hout : ∀ fsm t c, (p.data_received fsm t c).trans.outbuf = t.outbuf) :
    ∀ (rq : List ReadRes) (st : Inner) (fsm : σ) (ctx : χ)
      (rq1 : List ReadRes) (st1 : Inner) (fsm1 : σ) (ctx1 : χ),
      (readLoopGo p rq st fsm ctx).2 = ROut.flow rq1 st1 fsm1 ctx1 →
      st1.outbuf = st.outbuf := by
  intro rq
  induction rq with
  | nil =>
    intro st fsm ctx rq1 st1 fsm1 ctx1 h
    simp only [readLoopGo] at h
    injection h with h1 h2 h3 h4
    subst h2
    rfl
  | cons r rest ih =>
    intro st fsm ctx rq1 st1 fsm1 ctx1 h
    cases r with
    | ok c =>
      by_cases hc : c = []
      · simp only [readLoopGo, hc, reduceIte] at h
        simp at h
      · rcases hcb : p.data_received fsm
            (Inner.transport { st with inbuf := st.inbuf ++ c }) ctx with ⟨tcb, ctx1x, nx⟩
        cases nx with
        | stop =>
          simp only [readLoopGo, hc, hcb, reduceIte] at h
          simp at h
        | cont fsm1x u =>
          simp only [readLoopGo, hc, hcb, reduceIte] at h
          have IH := ih { st with inbuf := tcb.inbuf, outbuf := tcb.outbuf } fsm1x ctx1x
            rq1 st1 fsm1 ctx1 h
          have htc : tcb.outbuf = st.outbuf := by
            have hx := Hout fsm (Inner.transport { st with inbuf := st.inbuf ++ c }) ctx
            rw [hcb] at hx
            simpa [Inner.transport] using hx
          simpa [htc] using IH
    | wouldBlock =>
      simp only [readLoopGo] at h
      injection h with h1 h2 h3 h4
      subst h2
      rfl
    | interrupted =>
      simp only [readLoopGo] at h
      exact ih st fsm ctx rq1 st1 fsm1 ctx1 h
    | err er =>
      simp only [readLoopGo] at h
      simp at h

/-!
### Event classification helpers
-/

/-- Data events handed to `data_received` specifically. -/
def isDrEv : Ev → Bool
  | .data_received _ _ => true
  | _ => false

/-- Data events of either kind. -/
def isDataEv : Ev → Bool
  | .data_received _ _ => true
  | .data_transferred _ _ => true
  | _ => false

/-- Successful read-transfer events. -/
def isRdOkEv : Ev → Bool
  | .read_ok _ => true
  | _ => false

lemma wl_no_dr {e : Ev} (h : wlEv e = true) : isDrEv e = false := by
  cases e <;> simp [wlEv, isDrEv] at h ⊢

lemma wl_no_read_ok {e : Ev} (h : wlEv e = true) : isRdOkEv e = false := by
  cases e <;> simp [wlEv, isRdOkEv] at h ⊢

lemma rl_no_write_wb {e : Ev} (h : rlEv e = true) : e ≠ Ev.write_wb := by
  cases e <;> simp [rlEv] at h ⊢

lemma wl_no_read_wb {e : Ev} (h : wlEv e = true) : e ≠ Ev.read_wb := by
  cases e <;> simp [wlEv] at h ⊢

lemma consumedTotal_zero_of_no_dr {tr : List Ev} (h : ∀ e ∈ tr, isDrEv e = false) :
    consumedTotal tr = 0 := by
  induction tr with
  | nil => rfl
  | cons e r ih =>
    have he := h e (by simp)
    have hr := ih fun x hx => h x (by simp [hx])
    cases e <;> simp [consumedTotal, hr] <;> simp [isDrEv] at he

lemma readBytes_nil_of_no_read_ok {tr : List Ev} (h : ∀ e ∈ tr, isRdOkEv e = false) :
    readBytes tr = [] := by
  induction tr with
  | nil => rfl
  | cons e r ih =>
    have he := h e (by simp)
    have hr := ih fun x hx => h x (by simp [hx])
    cases e <;> simp [readBytes, hr] <;> simp [isRdOkEv] at he

lemma dataOk_of_no_data {t0 : Transport} {tr : List Ev}
    (h : ∀ e ∈ tr, isDataEv e = false) : DataOk t0 tr := by
  intro pre seen after post hdec
  rcases hdec with hd | hd
  · have hmem : Ev.data_received seen after ∈ tr := by simp [hd]
    have := h _ hmem
    simp [isDataEv] at this
  · have hmem : Ev.data_transferred seen after ∈ tr := by simp [hd]
    have := h _ hmem
    simp [isDataEv] at this

lemma recvChain_of_no_dr {i0 : List Nat} {tr : List Ev}
    (h : ∀ e ∈ tr, isDrEv e = false) : RecvChain i0 tr := by
  intro pre seen after post hdec
  have hmem : Ev.data_received seen after ∈ tr := by simp [hdec]
  have := h _ hmem
  simp [isDrEv] at this

/-!
### Receive-chain lemmas
-/

lemma recvChain_cons_neutral {i0 : List Nat} {e : Ev} {tr : List Ev}
    (hdr : isDrEv e = false)
    (hc : ∀ l, consumedTotal (e :: l) = consumedTotal l)
    (hr : ∀ l, readBytes (e :: l) = readBytes l)
    (h : RecvChain i0 tr) : RecvChain i0 (e :: tr) := by
  intro pre seen after post hdec
  rcases cons_decomp hdec with ⟨hp, hev, _⟩ | ⟨pre1, hp, hq⟩
  · rw [← hev] at hdr
    simp [isDrEv] at hdr
  · subst hp
    have H := h pre1 seen after post hq
    refine ⟨?_, ?_⟩
    · rw [hc pre1]
      have hrt : readTotal (e :: pre1) = readTotal pre1 := by
        simp only [readTotal, hr pre1]
      rw [hrt]
      exact H.1
    · rw [hr pre1]
      exact H.2

lemma recvChain_cons2 {i0 c : List Nat} {seen0 after0 : Transport} {tr : List Ev}
    (hseen : seen0.inbuf = i0 ++ c)
    (hsuf : after0.inbuf <:+ seen0.inbuf)
    (h : RecvChain after0.inbuf tr) :
    RecvChain i0 (Ev.read_ok c :: Ev.data_received seen0 after0 :: tr) := by
  intro pre seen after post hdec
  rcases cons_decomp hdec with ⟨hp, hev, _⟩ | ⟨pre1, hp, hq⟩
  · exact absurd hev (by simp)
  · subst hp
    rcases cons_decomp hq with ⟨hp1, hev1, _⟩ | ⟨pre2, hp1, hq1⟩
    · subst hp1
      obtain ⟨rfl, rfl⟩ : seen = seen0 ∧ after = after0 := by
        simpa using hev1
      refine ⟨?_, ?_⟩
      · simp [consumedTotal, readTotal, readBytes, hseen]
      · rw [hseen]
        simp [readBytes]
    · subst hp1
      have H := h pre2 seen after post hq1
      have hlen : after0.inbuf.length ≤ seen0.inbuf.length := hsuf.length_le
      have hs : seen0.inbuf.length = i0.length + c.length := by
        rw [hseen]
        simp
      refine ⟨?_, ?_⟩
      · have hc2 : consumedTotal (Ev.read_ok c :: Ev.data_received seen0 after0 :: pre2) =
            (seen0.inbuf.length - after0.inbuf.length) + consumedTotal pre2 := by
          simp [consumedTotal]
        have hr2 : readTotal (Ev.read_ok c :: Ev.data_received seen0 after0 :: pre2) =
            c.length + readTotal pre2 := by
          simp [readTotal, readBytes]
        rw [hc2, hr2]
        have := H.1
        omega
      · have hsx : after0.inbuf ++ readBytes pre2 <:+ (i0 ++ c) ++ readBytes pre2 := by
          apply suffix_append_both
          rw [← hseen]
          exact hsuf
        have hfin : seen.inbuf <:+ (i0 ++ c) ++ readBytes pre2 := H.2.trans hsx
        have hrw : readBytes (Ev.read_ok c :: Ev.data_received seen0 after0 :: pre2) =
            c ++ readBytes pre2 := by
          simp [readBytes]
        rw [hrw, ← List.append_assoc]
        exact hfin

lemma recvChain_prepend {i0 : List Nat} {trZ tr : List Ev}
    (hz1 : ∀ e ∈ trZ, isDrEv e = false)
    (hz2 : consumedTotal trZ = 0) (hz3 : readBytes trZ = [])
    (h : RecvChain i0 tr) : RecvChain i0 (trZ ++ tr) := by
  intro pre seen after post hdec
  obtain ⟨preR, hp, hq⟩ := split_skip (Q := fun e => isDrEv e = true) hdec
      (fun e he hc => by
        have hc1 : isDrEv e = true := hc
        rw [hz1 e he] at hc1
        exact absurd hc1 (by simp))
      (show isDrEv (Ev.data_received seen after) = true from rfl)
  subst hp
  have H := h preR seen after post hq
  refine ⟨?_, ?_⟩
  · rw [consumedTotal_append, hz2]
    have hrt : readTotal (trZ ++ preR) = readTotal preR := by
      simp only [readTotal, readBytes_append, hz3, List.nil_append]
    rw [hrt]
    simpa using H.1
  · rw [readBytes_append, hz3, List.nil_append]
    exact H.2

lemma recvChain_append_nr {i0 : List Nat} {tr trZ : List Ev}
    (h : RecvChain i0 tr) (hz : ∀ e ∈ trZ, isDrEv e = false) :
    RecvChain i0 (tr ++ trZ) := by
  intro pre seen after post hdec
  rcases append_decomp hdec with ⟨mid, hm, _⟩ | ⟨preR, hp, hq⟩
  · exact h pre seen after mid hm
  · have hmem : Ev.data_received seen after ∈ trZ := by simp [hq]
    have := hz _ hmem
    simp [isDrEv] at this

/-!
### Replay invariants of the loops
-/

lemma writeLoopGo_replay (p : Protocol σ χ) :
    ∀ (wq : List WriteRes) (st : Inner) (fsm : σ) (ctx : χ),
      DataOk st.transport (writeLoopGo p wq st fsm ctx).1 ∧
      (∀ wq1 st1 fsm1 ctx1,
        (writeLoopGo p wq st fsm ctx).2 = WOut.flow wq1 st1 fsm1 ctx1 →
        st1.transport = replay st.transport (writeLoopGo p wq st fsm ctx).1) := by
  intro wq
  induction wq with
  | nil =>
    intro st fsm ctx
    by_cases ho : st.outbuf = [] <;> simp only [writeLoopGo, ho, reduceIte]
    · refine ⟨dataOk_nil _, ?_⟩
      intro a b c d h
      injection h with h1 h2 h3 h4
      subst h2
      simp [replay]
    · refine ⟨dataOk_of_no_data (by decide), ?_⟩
      intro a b c d h
      injection h with h1 h2 h3 h4
      subst h2
      simp [replay, stepEv, Inner.transport]
  | cons w rest ih =>
    intro st fsm ctx
    cases w with
    | ok n =>
      by_cases ho : st.outbuf = []
      · simp only [writeLoopGo, ho, reduceIte]
        refine ⟨dataOk_nil _, ?_⟩
        intro a b c d h
        injection h with h1 h2 h3 h4
        subst h2
        simp [replay]
      · by_cases hn : n = 0
        · simp only [writeLoopGo, ho, hn, reduceIte]
          refine ⟨dataOk_of_no_data (by decide), ?_⟩
          intro a b c d h
          simp at h
        · rcases hcb : p.data_transferred fsm
              (Inner.transport { st with outbuf := st.outbuf.drop n }) ctx with ⟨tcb, ctx1, nx⟩
          cases nx with
          | stop =>
            simp only [writeLoopGo, ho, hn, hcb, reduceIte]
            refine ⟨?_, ?_⟩
            · refine dataOk_cons ?_ (dataOk_cons ?_ (dataOk_nil _))
              · intro s a hh
                rcases hh with hh | hh <;> simp at hh
              · intro s a hh
                rcases hh with hh | hh
                · simp at hh
                · simp only [Ev.data_transferred.injEq] at hh
                  rw [← hh.1]
                  rfl
            · intro a b c d h
              simp at h
          | cont fsm1 u =>
            have IH := ih { st with inbuf := tcb.inbuf, outbuf := tcb.outbuf } fsm1 ctx1
            simp only [writeLoopGo, ho, hn, hcb, reduceIte]
            refine ⟨?_, ?_⟩
            · refine dataOk_cons ?_ (dataOk_cons ?_ ?_)
              · intro s a hh
                rcases hh with hh | hh <;> simp at hh
              · intro s a hh
                rcases hh with hh | hh
                · simp at hh
                · simp only [Ev.data_transferred.injEq] at hh
                  rw [← hh.1]
                  rfl
              · exact IH.1
            · intro a b c d h
              simp only [replay]
              exact IH.2 a b c d h
    | wouldBlock =>
      by_cases ho : st.outbuf = [] <;> simp only [writeLoopGo, ho, reduceIte]
      · refine ⟨dataOk_nil _, ?_⟩
        intro a b c d h
        injection h with h1 h2 h3 h4
        subst h2
        simp [replay]
      · refine ⟨dataOk_of_no_data (by decide), ?_⟩
        intro a b c d h
        injection h with h1 h2 h3 h4
        subst h2
        simp [replay, stepEv, Inner.transport]
    | interrupted =>
      by_cases ho : st.outbuf = [] <;> simp only [writeLoopGo, ho, reduceIte]
      · refine ⟨dataOk_nil _, ?_⟩
        intro a b c d h
        injection h with h1 h2 h3 h4
        subst h2
        simp [replay]
      · exact ih st fsm ctx
    | err er =>
      by_cases ho : st.outbuf = [] <;> simp only [writeLoopGo, ho, reduceIte]
      · refine ⟨dataOk_nil _, ?_⟩
        intro a b c d h
        injection h with h1 h2 h3 h4
        subst h2
        simp [replay]
      · refine ⟨?_, ?_⟩
        · refine dataOk_of_no_data ?_
          intro e he
          simp at he
          rcases he with rfl | rfl <;> rfl
        · intro a b c d h
          simp at h

lemma readLoopGo_replay (p : Protocol σ χ) :
    ∀ (rq : List ReadRes) (st : Inner) (fsm : σ) (ctx : χ),
      DataOk st.transport (readLoopGo p rq st fsm ctx).1 ∧
      (∀ rq1 st1 fsm1 ctx1,
        (readLoopGo p rq st fsm ctx).2 = ROut.flow rq1 st1 fsm1 ctx1 →
        st1.transport = replay st.transport (readLoopGo p rq st fsm ctx).1) := by
  intro rq
  induction rq with
  | nil =>
    intro st fsm ctx
    simp only [readLoopGo]
    refine ⟨dataOk_of_no_data (by decide), ?_⟩
    intro a b c d h
    injection h with h1 h2 h3 h4
    subst h2
    simp [replay, stepEv, Inner.transport]
  | cons r rest ih =>
    intro st fsm ctx
    cases r with
    | ok c =>
      by_cases hc : c = []
      · simp only [readLoopGo, hc, reduceIte]
        refine ⟨dataOk_of_no_data (by decide), ?_⟩
        intro a b c d h
        simp at h
      · rcases hcb : p.data_received fsm
            (Inner.transport { st with inbuf := st.inbuf ++ c }) ctx with ⟨tcb, ctx1, nx⟩
        cases nx with
        | stop =>
          simp only [readLoopGo, hc, hcb, reduceIte]
          refine ⟨?_, ?_⟩
          · refine dataOk_cons ?_ (dataOk_cons ?_ (dataOk_nil _))
            · intro s a hh
              rcases hh with hh | hh <;> simp at hh
            · intro s a hh
              rcases hh with hh | hh
              · simp only [Ev.data_received.injEq] at hh
                rw [← hh.1]
                rfl
              · simp at hh
          · intro a b c d h
            simp at h
        | cont fsm1 u =>
          have IH := ih { st with inbuf := tcb.inbuf, outbuf := tcb.outbuf } fsm1 ctx1
          simp only [readLoopGo, hc, hcb, reduceIte]
          refine ⟨?_, ?_⟩
          · refine dataOk_cons ?_ (dataOk_cons ?_ ?_)
            · intro s a hh
              rcases hh with hh | hh <;> simp at hh
            · intro s a hh
              rcases hh with hh | hh
              · simp only [Ev.data_received.injEq] at hh
                rw [← hh.1]
                rfl
              · simp at hh
            · exact IH.1
          · intro a b c d h
            simp only [replay]
            exact IH.2 a b c d h
    | wouldBlock =>
      simp only [readLoopGo]
      refine ⟨dataOk_of_no_data (by decide), ?_⟩
      intro a b c d h
      injection h with h1 h2 h3 h4
      subst h2
      simp [replay, stepEv, Inner.transport]
    | interrupted =>
      simp only [readLoopGo]
      exact ih st fsm ctx
    | err er =>
      simp only [readLoopGo]
      refine ⟨?_, ?_⟩
      · refine dataOk_of_no_data ?_
        intro e he
        simp at he
        rcases he with rfl | rfl <;> rfl
      · intro a b c d h
        simp at h

lemma readLoopGo_chain (p : Protocol σ χ)
    (Hr : ∀ fsm t c, (p.data_received fsm t c).trans.inbuf <:+ t.inbuf) :
    ∀ (rq : List ReadRes) (st : Inner) (fsm : σ) (ctx : χ),
      RecvChain st.inbuf (readLoopGo p rq st fsm ctx).1 ∧
      (∀ rq1 st1 fsm1 ctx1,
        (readLoopGo p rq st fsm ctx).2 = ROut.flow rq1 st1 fsm1 ctx1 →
        st1.inbuf.length + consumedTotal (readLoopGo p rq st fsm ctx).1 =
          st.inbuf.length + readTotal (readLoopGo p rq st fsm ctx).1) := by
  intro rq
  induction rq with
  | nil =>
    intro st fsm ctx
    simp only [readLoopGo]
    refine ⟨recvChain_of_no_dr (by decide), ?_⟩
    intro a b c d h
    injection h with h1 h2 h3 h4
    subst h2
    rfl
  | cons r rest ih =>
    intro st fsm ctx
    cases r with
    | ok c =>
      by_cases hc : c = []
      · simp only [readLoopGo, hc, reduceIte]
        refine ⟨recvChain_of_no_dr (by decide), ?_⟩
        intro a b c d h
        simp at h
      · rcases hcb : p.data_received fsm
            (Inner.transport { st with inbuf := st.inbuf ++ c }) ctx with ⟨tcb, ctx1, nx⟩
        have hsuf : tcb.inbuf <:+ st.inbuf ++ c := by
          have hx := Hr fsm (Inner.transport { st with inbuf := st.inbuf ++ c }) ctx
          rw [hcb] at hx
          simpa [Inner.transport] using hx
        cases nx with
        | stop =>
          simp only [readLoopGo, hc, hcb, reduceIte]
          refine ⟨?_, ?_⟩
          · refine recvChain_cons2 rfl ?_ (recvChain_of_no_dr (by simp))
            simpa [Inner.transport] using hsuf
          · intro a b c d h
            simp at h
        | cont fsm1 u =>
          have IH := ih { st with inbuf := tcb.inbuf, outbuf := tcb.outbuf } fsm1 ctx1
          simp only [readLoopGo, hc, hcb, reduceIte]
          refine ⟨?_, ?_⟩
          · refine recvChain_cons2 rfl ?_ IH.1
            simpa [Inner.transport] using hsuf
          · intro q1 s1 f1 c1 h
            have H := IH.2 q1 s1 f1 c1 h
            dsimp only at H
            have hlen : tcb.inbuf.length ≤ st.inbuf.length + c.length := by
              have := hsuf.length_le
              simpa using this
            have hc2 : consumedTotal (Ev.read_ok c ::
                Ev.data_received (Inner.transport { st with inbuf := st.inbuf ++ c }) tcb ::
                (readLoopGo p rest { st with inbuf := tcb.inbuf, outbuf := tcb.outbuf } fsm1 ctx1).1) =
                ((st.inbuf ++ c).length - tcb.inbuf.length) +
                  consumedTotal (readLoopGo p rest { st with inbuf := tcb.inbuf, outbuf := tcb.outbuf } fsm1 ctx1).1 := by
              simp [consumedTotal, Inner.transport]
            have hr2 : readTotal (Ev.read_ok c ::
                Ev.data_received (Inner.transport { st with inbuf := st.inbuf ++ c }) tcb ::
                (readLoopGo p rest { st with inbuf := tcb.inbuf, outbuf := tcb.outbuf } fsm1 ctx1).1) =
                c.length +
                  readTotal (readLoopGo p rest { st with inbuf := tcb.inbuf, outbuf := tcb.outbuf } fsm1 ctx1).1 := by
              simp [readTotal, readBytes]
            rw [hc2, hr2]
            have hap : (st.inbuf ++ c).length = st.inbuf.length + c.length := by simp
            omega
    | wouldBlock =>
      simp only [readLoopGo]
      refine ⟨recvChain_of_no_dr (by decide), ?_⟩
      intro a b c d h
      injection h with h1 h2 h3 h4
      subst h2
      rfl
    | interrupted =>
      simp only [readLoopGo]
      exact ih st fsm ctx
    | err er =>
      simp only [readLoopGo]
      refine ⟨?_, ?_⟩
      · refine recvChain_of_no_dr ?_
        intro e he
        simp at he
        rcases he with rfl | rfl <;> rfl
      · intro a b c d h
        simp at h

lemma readLoopGo_chunks (p : Protocol σ χ)
    (Hcont : ∀ fsm t c, (p.data_received fsm t c).next ≠ Async.stop) :
    ∀ (chunks : List (List Nat)) (rest : List ReadRes) (st : Inner) (fsm : σ) (ctx : χ),
      (∀ c ∈ chunks, c ≠ []) →
      ∃ st1 fsm1 ctx1,
        (readLoopGo p (chunks.map ReadRes.ok ++ ReadRes.wouldBlock :: rest) st fsm ctx).2 =
          ROut.flow rest st1 fsm1 ctx1 ∧
        readBytes (readLoopGo p (chunks.map ReadRes.ok ++ ReadRes.wouldBlock :: rest) st fsm ctx).1 =
          chunks.flatten := by
  intro chunks
  induction chunks with
  | nil =>
    intro rest st fsm ctx hch
    refine ⟨{ st with readable := false }, fsm, ctx, ?_, ?_⟩
    · simp [readLoopGo]
    · simp [readLoopGo, readBytes]
  | cons c chunks ih =>
    intro rest st fsm ctx hch
    have hc : c ≠ [] := hch c (by simp)
    rcases hcb : p.data_received fsm
        (Inner.transport { st with inbuf := st.inbuf ++ c }) ctx with ⟨tcb, ctx1, nx⟩
    cases nx with
    | stop =>
      exfalso
      have hx := Hcont fsm (Inner.transport { st with inbuf := st.inbuf ++ c }) ctx
      rw [hcb] at hx
      exact hx rfl
    | cont fsm1 u =>
      obtain ⟨st1, fsm2, ctx2, h1, h2⟩ :=
        ih rest { st with inbuf := tcb.inbuf, outbuf := tcb.outbuf } fsm1 ctx1
          (fun x hx => hch x (by simp [hx]))
      refine ⟨st1, fsm2, ctx2, ?_, ?_⟩
      · simp only [List.map_cons, List.cons_append, readLoopGo, hc, hcb, reduceIte]
        exact h1
      · have hrb : readBytes (Ev.read_ok c ::
            Ev.data_received (Inner.transport { st with inbuf := st.inbuf ++ c }) tcb ::
            (readLoopGo p (List.map ReadRes.ok chunks ++ ReadRes.wouldBlock :: rest)
              { st with inbuf := tcb.inbuf, outbuf := tcb.outbuf } fsm1 ctx1).1) =
            c ++ readBytes (readLoopGo p (List.map ReadRes.ok chunks ++ ReadRes.wouldBlock :: rest)
              { st with inbuf := tcb.inbuf, outbuf := tcb.outbuf } fsm1 ctx1).1 := by
          simp [readBytes]
        simp only [List.map_cons, List.cons_append, readLoopGo, hc, hcb, reduceIte,
          List.append_eq]
        rw [hrb, h2]
        simp

/-!
### Phase unfolding lemmas
-/

lemma phaseA_skip (p : Protocol σ χ) (evset : EventSet) (wq : List WriteRes)
    (st : Inner) (fsm : σ) (ctx : χ)
    (hng : ¬(evset.is_writable = true ∧ st.outbuf ≠ [])) :
    phaseA p evset wq st fsm ctx = ([], .flow wq st fsm ctx) := by
  simp only [phaseA]
  rw [if_neg]
  simpa using hng

lemma phaseA_run (p : Protocol σ χ) (evset : EventSet) (wq : List WriteRes)
    (st : Inner) (fsm : σ) (ctx : χ)
    (hg : evset.is_writable = true ∧ st.outbuf ≠ []) :
    phaseA p evset wq st fsm ctx =
      (Ev.set_writable true :: (writeLoopGo p wq { st with writable := true } fsm ctx).1,
       (writeLoopGo p wq { st with writable := true } fsm ctx).2) := by
  simp only [phaseA]
  rw [if_pos]
  simpa using hg

lemma phaseB_skip (p : Protocol σ χ) (evset : EventSet) (rq : List ReadRes)
    (st : Inner) (fsm : σ) (ctx : χ) (hng : evset.is_readable = false) :
    phaseB p evset rq st fsm ctx = ([], .flow rq st fsm ctx) := by
  simp [phaseB, hng]

lemma phaseB_run (p : Protocol σ χ) (evset : EventSet) (rq : List ReadRes)
    (st : Inner) (fsm : σ) (ctx : χ) (hg : evset.is_readable = true) :
    phaseB p evset rq st fsm ctx =
      (Ev.set_readable true :: (readLoopGo p rq { st with readable := true } fsm ctx).1,
       (readLoopGo p rq { st with readable := true } fsm ctx).2) := by
  simp [phaseB, hg]

lemma phaseC_skip (p : Protocol σ χ) (wq : List WriteRes)
    (st : Inner) (fsm : σ) (ctx : χ)
    (hng : ¬(st.writable = true ∧ st.outbuf ≠ [])) :
    phaseC p wq st fsm ctx = ([], .flow wq st fsm ctx) := by
  simp only [phaseC]
  rw [if_neg]
  simpa using hng

lemma phaseC_run (p : Protocol σ χ) (wq : List WriteRes)
    (st : Inner) (fsm : σ) (ctx : χ)
    (hg : st.writable = true ∧ st.outbuf ≠ []) :
    phaseC p wq st fsm ctx = writeLoopGo p wq st fsm ctx := by
  simp only [phaseC]
  rw [if_pos]
  exact ⟨hg.1, hg.2⟩

/-!
### The claims
-/

/-- Claim C4: calling `ready` with an event set marking neither readable
nor writable, on a connection with an empty outbound buffer, invokes no
protocol callback, performs no socket transfer (the trace is empty and
both outcome scripts are returned untouched), and returns `Continue` with
the connection — socket scripts, buffers, cached flags and protocol state
— unchanged. -/
theorem c4_noop_ready (p : Protocol σ χ) (evset : EventSet) (s : Stream σ) (ctx : χ)
    (hr : evset.is_readable = false) (hw : evset.is_writable = false)
    (ho : s.inner.outbuf = []) :
    ready p evset s ctx = ([], ctx, Async.cont s none) := by
  have hA : phaseA p evset s.wq s.inner s.fsm ctx = ([], .flow s.wq s.inner s.fsm ctx) :=
    phaseA_skip _ _ _ _ _ _ (by simp [hw])
  have hB : phaseB p evset s.rq s.inner s.fsm ctx = ([], .flow s.rq s.inner s.fsm ctx) :=
    phaseB_skip _ _ _ _ _ _ hr
  have hC : phaseC p s.wq s.inner s.fsm ctx = ([], .flow s.wq s.inner s.fsm ctx) :=
    phaseC_skip _ _ _ _ _ (by simp [ho])
  simp only [ready, hA, hB, hC]
  simp

/-- Witness for C4: a concrete connection with non-trivial scripts, flags
and inbound buffer passes through `ready` untouched. -/
theorem c4_noop_ready_witness :
    ready unitProto ⟨false, false⟩
        ⟨[ReadRes.wouldBlock], [WriteRes.wouldBlock], ⟨[1], [], true, true⟩, ()⟩ 5 =
      ([], 5, Async.cont ⟨[ReadRes.wouldBlock], [WriteRes.wouldBlock], ⟨[1], [], true, true⟩, ()⟩ none) :=
  c4_noop_ready unitProto ⟨false, false⟩
    ⟨[ReadRes.wouldBlock], [WriteRes.wouldBlock], ⟨[1], [], true, true⟩, ()⟩ 5 rfl rfl rfl

/-- Claim C9: `accept` invokes `Protocol::accepted` exactly once (for the
counting protocol `unitProto` the context increases by exactly one); when
`accepted` rejects, no connection is created; when it returns a state, the
connection wraps the socket with two empty buffers, cached
`writable = true` and `readable = false`, and that state. -/
theorem c9_accept (p : Protocol σ χ) (rq : List ReadRes) (wq : List WriteRes) (ctx : χ) :
    (∀ ctx1, p.accepted ctx = (ctx1, none) → accept p rq wq ctx = (ctx1, none)) ∧
    (∀ ctx1 fsm, p.accepted ctx = (ctx1, some fsm) →
      accept p rq wq ctx =
        (ctx1, some ⟨rq, wq, { inbuf := [], outbuf := [], writable := true, readable := false }, fsm⟩)) ∧
    (∀ (rq1 : List ReadRes) (wq1 : List WriteRes) (n : Nat),
      (accept unitProto rq1 wq1 n).1 = n + 1) := by
  refine ⟨?_, ?_, ?_⟩
  · intro ctx1 h
    simp [accept, h]
  · intro ctx1 fsm h
    simp [accept, h]
  · intro rq1 wq1 n
    rfl

/-- Witness for C9: accepting with the counting protocol creates the
connection with empty buffers, `writable = true`, `readable = false`, and
bumps the acceptance counter once. -/
theorem c9_accept_witness :
    accept unitProto [] [] 0 =
      (1, some ⟨[], [], { inbuf := [], outbuf := [], writable := true, readable := false }, ()⟩) :=
  (c9_accept unitProto [] [] 0).2.1 1 () rfl

/-- Claim C3: with an event set marking both readable and writable, a
non-empty outbound buffer, and a zero-byte read result, phase A's write
loop runs first (its trace precedes any read handling), then phase B
observes the zero-byte read, fires `eof_received` exactly once on the
state phase A left, the call returns `Stop` and phase C never runs (the
trace ends at the `eof_received` event); likewise a zero-byte
write-transfer in phase A with a non-empty buffer fires `eof_received`
exactly once and returns `Stop`. -/
theorem c3_eof_ordering (p : Protocol σ χ) :
    (∀ (evset : EventSet) (s : Stream σ) (ctx : χ) (trW : List Ev)
        (wq1 : List WriteRes) (st1 : Inner) (fsm1 : σ) (ctx1 : χ) (rq1 : List ReadRes),
      evset.is_readable = true → evset.is_writable = true → s.inner.outbuf ≠ [] →
      s.rq = ReadRes.ok [] :: rq1 →
      writeLoopGo p s.wq { s.inner with writable := true } s.fsm ctx =
        (trW, .flow wq1 st1 fsm1 ctx1) →
      ready p evset s ctx =
        ((Ev.set_writable true :: trW) ++
           (Ev.set_readable true :: [Ev.read_ok [], Ev.eof_received]),
         p.eof_received fsm1 ctx1, Async.stop) ∧
      ((Ev.set_writable true :: trW) ++
         (Ev.set_readable true :: [Ev.read_ok [], Ev.eof_received])).count Ev.eof_received = 1) ∧
    (∀ (evset : EventSet) (s : Stream σ) (ctx : χ) (wq1 : List WriteRes),
      evset.is_writable = true → s.inner.outbuf ≠ [] → s.wq = WriteRes.ok 0 :: wq1 →
      ready p evset s ctx =
        ([Ev.set_writable true, Ev.write_ok 0, Ev.eof_received],
         p.eof_received s.fsm ctx, Async.stop)) := by
  refine ⟨?_, ?_⟩
  · intro evset s ctx trW wq1 st1 fsm1 ctx1 rq1 her hew ho hrq hwl
    have hA : phaseA p evset s.wq s.inner s.fsm ctx =
        (Ev.set_writable true :: trW, .flow wq1 st1 fsm1 ctx1) := by
      rw [phaseA_run p evset s.wq s.inner s.fsm ctx ⟨hew, ho⟩, hwl]
    have hB : phaseB p evset s.rq st1 fsm1 ctx1 =
        (Ev.set_readable true :: [Ev.read_ok [], Ev.eof_received],
         .halt (p.eof_received fsm1 ctx1)) := by
      rw [phaseB_run p evset s.rq st1 fsm1 ctx1 her, hrq]
      simp [readLoopGo]
    refine ⟨?_, ?_⟩
    · simp only [ready, hA, hB]
    · have h0 : termCount trW = 0 := by
        have hx := (writeLoopGo_term p s.wq { s.inner with writable := true } s.fsm ctx).2.2
          wq1 st1 fsm1 ctx1 (by rw [hwl])
        rw [hwl] at hx
        exact hx
      have hno : trW.count Ev.eof_received = 0 := count_eof_zero_of_termCount_zero h0
      simp [List.count_cons, List.count_append, hno]
  · intro evset s ctx wq1 hew ho hwq
    have hA : phaseA p evset s.wq s.inner s.fsm ctx =
        (Ev.set_writable true :: [Ev.write_ok 0, Ev.eof_received],
         .halt (p.eof_received s.fsm ctx)) := by
      rw [phaseA_run p evset s.wq s.inner s.fsm ctx ⟨hew, ho⟩, hwq]
      simp [writeLoopGo, ho]
    simp only [ready, hA]

/-- Witness for C3: both scenario halves at concrete connections; the
first: one would-block write, then the zero-byte read fires `eof_received`
once and stops before phase C. -/
theorem c3_eof_ordering_witness :
    (ready unitProto ⟨true, true⟩
        ⟨[ReadRes.ok []], [WriteRes.wouldBlock], ⟨[], [7], false, false⟩, ()⟩ 0 =
      ((Ev.set_writable true :: [Ev.write_wb, Ev.set_writable false]) ++
        (Ev.set_readable true :: [Ev.read_ok [], Ev.eof_received]), 0, Async.stop) ∧
     ((Ev.set_writable true :: [Ev.write_wb, Ev.set_writable false]) ++
       (Ev.set_readable true :: [Ev.read_ok [], Ev.eof_received])).count Ev.eof_received = 1) ∧
    ready unitProto ⟨false, true⟩
        ⟨[], [WriteRes.ok 0], ⟨[], [7], false, false⟩, ()⟩ 0 =
      ([Ev.set_writable true, Ev.write_ok 0, Ev.eof_received], 0, Async.stop) :=
  ⟨(c3_eof_ordering unitProto).1 ⟨true, true⟩
      ⟨[ReadRes.ok []], [WriteRes.wouldBlock], ⟨[], [7], false, false⟩, ()⟩ 0
      [Ev.write_wb, Ev.set_writable false] [] ⟨[], [7], false, false⟩ () 0 []
      rfl rfl (by decide) rfl (by decide),
   (c3_eof_ordering unitProto).2 ⟨false, true⟩
      ⟨[], [WriteRes.ok 0], ⟨[], [7], false, false⟩, ()⟩ 0 []
      rfl (by decide) rfl⟩

/-- Claim C7: whenever phases A and B both complete without stopping and
the state they leave has the cached writable flag set and a non-empty
outbound buffer, `ready` runs the write loop again as phase C — its trace
is appended and is never empty — regardless of what the triggering event
set contained (the event set is quantified and not constrained). -/
theorem c7_phaseC_runs (p : Protocol σ χ) (evset : EventSet) (s : Stream σ) (ctx : χ)
    (trA trB : List Ev) (wq1 : List WriteRes) (st1 : Inner) (fsm1 : σ) (ctx1 : χ)
    (rq2 : List ReadRes) (st2 : Inner) (fsm2 : σ) (ctx2 : χ)
    (hA : phaseA p evset s.wq s.inner s.fsm ctx = (trA, .flow wq1 st1 fsm1 ctx1))
    (hB : phaseB p evset s.rq st1 fsm1 ctx1 = (trB, .flow rq2 st2 fsm2 ctx2))
    (hw : st2.writable = true) (ho : st2.outbuf ≠ []) :
    (ready p evset s ctx).1 =
      trA ++ (trB ++ (writeLoopGo p wq1 st2 fsm2 ctx2).1) ∧
    (writeLoopGo p wq1 st2 fsm2 ctx2).1 ≠ [] := by
  have hC := phaseC_run p wq1 st2 fsm2 ctx2 ⟨hw, ho⟩
  refine ⟨?_, writeLoopGo_ne p wq1 st2 fsm2 ctx2 ho⟩
  rcases hwl : writeLoopGo p wq1 st2 fsm2 ctx2 with ⟨trC, outC⟩
  rw [hwl] at hC
  cases outC with
  | flow a b c d => simp only [ready, hA, hB, hC, hwl]
  | halt cx => simp only [ready, hA, hB, hC, hwl]

/-- Witness for C7: a readable-only event set; `data_received` appends
output, and phase C still attempts the flush, hitting a would-block. -/
theorem c7_phaseC_runs_witness :
    (ready pushProto ⟨true, false⟩
        ⟨[ReadRes.ok [1], ReadRes.wouldBlock], [WriteRes.wouldBlock],
          ⟨[], [], true, false⟩, ()⟩ 0).1 =
      [] ++ ([Ev.set_readable true, Ev.read_ok [1],
              Ev.data_received ⟨[1], []⟩ ⟨[1], [9]⟩, Ev.read_wb, Ev.set_readable false] ++
        (writeLoopGo pushProto [WriteRes.wouldBlock] ⟨[1], [9], true, false⟩ () 0).1) ∧
    (writeLoopGo pushProto [WriteRes.wouldBlock] ⟨[1], [9], true, false⟩ () 0).1 ≠ [] :=
  c7_phaseC_runs pushProto ⟨true, false⟩
    ⟨[ReadRes.ok [1], ReadRes.wouldBlock], [WriteRes.wouldBlock], ⟨[], [], true, false⟩, ()⟩ 0
    [] [Ev.set_readable true, Ev.read_ok [1],
        Ev.data_received ⟨[1], []⟩ ⟨[1], [9]⟩, Ev.read_wb, Ev.set_readable false]
    [WriteRes.wouldBlock] ⟨[], [], true, false⟩ () 0
    [] ⟨[1], [9], true, false⟩ () 0
    (by decide) (by decide) rfl (by decide)

/-- Dissection of a `ready` call that returns `Continue`: all three phases
flowed, the trace is their concatenation, the rebuilt stream carries the
leftover scripts and final state, and the carried value is `none`. -/
lemma ready_cont_cases (p : Protocol σ χ) (evset : EventSet) (s : Stream σ) (ctx : χ)
    (tr : List Ev) (ctxF : χ) (s1 : Stream σ) (v : Option (Stream σ))
    (h : ready p evset s ctx = (tr, ctxF, Async.cont s1 v)) :
    ∃ trA trB trC wq1 st1 fsm1 ctx1 rq2 st2 fsm2 ctx2,
      phaseA p evset s.wq s.inner s.fsm ctx = (trA, .flow wq1 st1 fsm1 ctx1) ∧
      phaseB p evset s.rq st1 fsm1 ctx1 = (trB, .flow rq2 st2 fsm2 ctx2) ∧
      phaseC p wq1 st2 fsm2 ctx2 = (trC, .flow s1.wq s1.inner s1.fsm ctxF) ∧
      tr = trA ++ (trB ++ trC) ∧ s1.rq = rq2 ∧ v = none := by
  rcases hA : phaseA p evset s.wq s.inner s.fsm ctx with ⟨trA, outA⟩
  cases outA with
  | halt cx =>
    simp only [ready, hA] at h
    simp at h
  | flow wq1 st1 fsm1 ctx1 =>
    rcases hB : phaseB p evset s.rq st1 fsm1 ctx1 with ⟨trB, outB⟩
    cases outB with
    | halt cx =>
      simp only [ready, hA, hB] at h
      simp at h
    | flow rq2 st2 fsm2 ctx2 =>
      rcases hC : phaseC p wq1 st2 fsm2 ctx2 with ⟨trC, outC⟩
      cases outC with
      | halt cx =>
        simp only [ready, hA, hB, hC] at h
        simp at h
      | flow wq3 st3 fsm3 ctx3 =>
        simp only [ready, hA, hB, hC, Prod.mk.injEq] at h
        obtain ⟨htr, hctx, hres⟩ := h
        injection hres with hs hv
        subst hs
        subst hv
        subst hctx
        subst htr
        exact ⟨trA, trB, trC, wq1, st1, fsm1, ctx1, rq2, st2, fsm2, ctx2,
          rfl, hB, hC, rfl, rfl, rfl⟩

/-- Claim C6: an `Interrupted` outcome is retried immediately and
unconditionally by both loops, never surfacing to the protocol (the run —
trace included — is literally the run without that outcome; for the write
loop this holds whenever the loop condition is met, i.e. the buffer is
non-empty); `ready` is a total function of the finite outcome scripts, so
every call terminates; and when it returns `Continue`, the write phases
ran until buffer exhaustion or a would-block (outbound buffer empty or
cached writable flag cleared) and the read phase, if the event set marked
readable, ran until a would-block (cached readable flag cleared). -/
theorem c6_quiescence (p : Protocol σ χ) :
    (∀ (wq : List WriteRes) (st : Inner) (fsm : σ) (ctx : χ), st.outbuf ≠ [] →
      writeLoopGo p (WriteRes.interrupted :: wq) st fsm ctx = writeLoopGo p wq st fsm ctx) ∧
    (∀ (rq : List ReadRes) (st : Inner) (fsm : σ) (ctx : χ),
      readLoopGo p (ReadRes.interrupted :: rq) st fsm ctx = readLoopGo p rq st fsm ctx) ∧
    (∀ (evset : EventSet) (s : Stream σ) (ctx : χ) (tr : List Ev) (ctxF : χ)
        (s1 : Stream σ) (v : Option (Stream σ)),
      ready p evset s ctx = (tr, ctxF, Async.cont s1 v) →
      (s1.inner.outbuf = [] ∨ s1.inner.writable = false) ∧
      (evset.is_readable = true → s1.inner.readable = false)) := by
  refine ⟨?_, ?_, ?_⟩
  · intro wq st fsm ctx ho
    simp [writeLoopGo, ho]
  · intro rq st fsm ctx
    simp [readLoopGo]
  · intro evset s ctx tr ctxF s1 v h
    obtain ⟨trA, trB, trC, wq1, st1, fsm1, ctx1, rq2, st2, fsm2, ctx2,
      hA, hB, hC, htr, hrq, hv⟩ := ready_cont_cases p evset s ctx tr ctxF s1 v h
    have hreadable : evset.is_readable = true → st2.readable = false := by
      intro hrd
      have hBr := phaseB_run p evset s.rq st1 fsm1 ctx1 hrd
      rw [hBr] at hB
      simp only [Prod.mk.injEq] at hB
      exact (readLoopGo_flow p s.rq { st1 with readable := true } fsm1 ctx1
        rq2 st2 fsm2 ctx2 hB.2).2
    by_cases hg : st2.writable = true ∧ st2.outbuf ≠ []
    · have hCr := phaseC_run p wq1 st2 fsm2 ctx2 hg
      rw [hCr] at hC
      have hfl : (writeLoopGo p wq1 st2 fsm2 ctx2).2 =
          WOut.flow s1.wq s1.inner s1.fsm ctxF := congrArg Prod.snd hC
      have hWF := writeLoopGo_flow p wq1 st2 fsm2 ctx2 s1.wq s1.inner s1.fsm ctxF hfl
      refine ⟨hWF.2.2.1, ?_⟩
      intro hrd
      rw [hWF.1]
      exact hreadable hrd
    · have hCs := phaseC_skip p wq1 st2 fsm2 ctx2 hg
      rw [hCs] at hC
      simp only [Prod.mk.injEq] at hC
      obtain ⟨-, hC2⟩ := hC
      injection hC2 with e1 e2 e3 e4
      refine ⟨?_, ?_⟩
      · rw [← e2]
        push_neg at hg
        by_cases hw : st2.writable = true
        · exact Or.inl (by simpa using hg hw)
        · exact Or.inr (by simpa using hw)
      · intro hrd
        rw [← e2]
        exact hreadable hrd

/-- Witness for C6: an interrupted write and an interrupted read are
transparent at concrete states, and a concrete `Continue` run ends
quiescent (outbound buffer drained, readable flag cleared). -/
theorem c6_quiescence_witness :
    (writeLoopGo unitProto [WriteRes.interrupted, WriteRes.wouldBlock] ⟨[], [3], true, false⟩ () 0 =
      writeLoopGo unitProto [WriteRes.wouldBlock] ⟨[], [3], true, false⟩ () 0) ∧
    (readLoopGo unitProto [ReadRes.interrupted, ReadRes.wouldBlock] ⟨[], [], true, true⟩ () 0 =
      readLoopGo unitProto [ReadRes.wouldBlock] ⟨[], [], true, true⟩ () 0) ∧
    (((⟨[], [], ⟨[1, 2], [], true, false⟩, ()⟩ : Stream Unit).inner.outbuf = [] ∨
      (⟨[], [], ⟨[1, 2], [], true, false⟩, ()⟩ : Stream Unit).inner.writable = false) ∧
     ((⟨true, true⟩ : EventSet).is_readable = true →
      (⟨[], [], ⟨[1, 2], [], true, false⟩, ()⟩ : Stream Unit).inner.readable = false)) :=
  ⟨(c6_quiescence unitProto).1 [WriteRes.wouldBlock] ⟨[], [3], true, false⟩ () 0 (by decide),
   (c6_quiescence unitProto).2.1 [ReadRes.wouldBlock] ⟨[], [], true, true⟩ () 0,
   (c6_quiescence unitProto).2.2 ⟨true, true⟩
     ⟨[ReadRes.ok [1, 2], ReadRes.wouldBlock], [WriteRes.ok 1], ⟨[], [5], true, false⟩, ()⟩ 0
     [Ev.set_writable true, Ev.write_ok 1, Ev.data_transferred ⟨[], []⟩ ⟨[], []⟩,
      Ev.set_readable true, Ev.read_ok [1, 2], Ev.data_received ⟨[1, 2], []⟩ ⟨[1, 2], []⟩,
      Ev.read_wb, Ev.set_readable false] 0
     ⟨[], [], ⟨[1, 2], [], true, false⟩, ()⟩ none (by decide)⟩

lemma phaseA_term (p : Protocol σ χ) (evset : EventSet) (wq : List WriteRes)
    (st : Inner) (fsm : σ) (ctx : χ) :
    termCount (phaseA p evset wq st fsm ctx).1 ≤ 1 ∧
    TermLast (phaseA p evset wq st fsm ctx).1 ∧
    (∀ wq1 st1 fsm1 ctx1,
      (phaseA p evset wq st fsm ctx).2 = WOut.flow wq1 st1 fsm1 ctx1 →
      termCount (phaseA p evset wq st fsm ctx).1 = 0) := by
  by_cases hg : evset.is_writable = true ∧ st.outbuf ≠ []
  · rw [phaseA_run p evset wq st fsm ctx hg]
    have W := writeLoopGo_term p wq { st with writable := true } fsm ctx
    dsimp only
    refine ⟨?_, ?_, ?_⟩
    · rw [termCount_set_writable]
      exact W.1
    · exact termLast_cons rfl W.2.1
    · intro a b c d hfl
      rw [termCount_set_writable]
      exact W.2.2 a b c d hfl
  · rw [phaseA_skip p evset wq st fsm ctx hg]
    exact ⟨Nat.zero_le 1, termLast_nil, fun a b c d hx => rfl⟩

lemma phaseB_term (p : Protocol σ χ) (evset : EventSet) (rq : List ReadRes)
    (st : Inner) (fsm : σ) (ctx : χ) :
    termCount (phaseB p evset rq st fsm ctx).1 ≤ 1 ∧
    TermLast (phaseB p evset rq st fsm ctx).1 ∧
    (∀ rq1 st1 fsm1 ctx1,
      (phaseB p evset rq st fsm ctx).2 = ROut.flow rq1 st1 fsm1 ctx1 →
      termCount (phaseB p evset rq st fsm ctx).1 = 0) := by
  cases hrd : evset.is_readable
  · rw [phaseB_skip p evset rq st fsm ctx hrd]
    exact ⟨Nat.zero_le 1, termLast_nil, fun a b c d hx => rfl⟩
  · rw [phaseB_run p evset rq st fsm ctx hrd]
    have W := readLoopGo_term p rq { st with readable := true } fsm ctx
    dsimp only
    refine ⟨?_, ?_, ?_⟩
    · rw [termCount_set_readable]
      exact W.1
    · exact termLast_cons rfl W.2.1
    · intro a b c d hfl
      rw [termCount_set_readable]
      exact W.2.2 a b c d hfl

lemma phaseC_term (p : Protocol σ χ) (wq : List WriteRes)
    (st : Inner) (fsm : σ) (ctx : χ) :
    termCount (phaseC p wq st fsm ctx).1 ≤ 1 ∧
    TermLast (phaseC p wq st fsm ctx).1 ∧
    (∀ wq1 st1 fsm1 ctx1,
      (phaseC p wq st fsm ctx).2 = WOut.flow wq1 st1 fsm1 ctx1 →
      termCount (phaseC p wq st fsm ctx).1 = 0) := by
  by_cases hg : st.writable = true ∧ st.outbuf ≠ []
  · rw [phaseC_run p wq st fsm ctx hg]
    exact writeLoopGo_term p wq st fsm ctx
  · rw [phaseC_skip p wq st fsm ctx hg]
    exact ⟨Nat.zero_le 1, termLast_nil, fun a b c d hx => rfl⟩

/-- Claim C2: in every `ready` call at most one terminal notification
(`eof_received` or `error_happened`) fires; if one fires it is the very
last event of the call's trace — no later phase invokes any protocol
method, in particular phase C's flush loop never runs after a terminal
outcome in phase A or B — and the call returns `Stop`. -/
theorem c2_terminal_once (p : Protocol σ χ) (evset : EventSet) (s : Stream σ) (ctx : χ)
    (tr : List Ev) (ctxF : χ) (res : Async (Stream σ) (Option (Stream σ)))
    (h : ready p evset s ctx = (tr, ctxF, res)) :
    termCount tr ≤ 1 ∧
    (∀ pre ev post, tr = pre ++ ev :: post → isTermEv ev = true →
      post = [] ∧ res = Async.stop) := by
  have A := phaseA_term p evset s.wq s.inner s.fsm ctx
  rcases hA : phaseA p evset s.wq s.inner s.fsm ctx with ⟨trA, outA⟩
  rw [hA] at A
  dsimp only at A
  cases outA with
  | halt cx =>
    simp only [ready, hA, Prod.mk.injEq] at h
    obtain ⟨htr, hcx, hres⟩ := h
    subst htr
    subst hres
    exact ⟨A.1, fun pre ev post hdec hterm => ⟨A.2.1 pre ev post hdec hterm, rfl⟩⟩
  | flow wq1 st1 fsm1 ctx1 =>
    have hA0 : termCount trA = 0 := A.2.2 wq1 st1 fsm1 ctx1 rfl
    have B := phaseB_term p evset s.rq st1 fsm1 ctx1
    rcases hB : phaseB p evset s.rq st1 fsm1 ctx1 with ⟨trB, outB⟩
    rw [hB] at B
    dsimp only at B
    cases outB with
    | halt cx =>
      simp only [ready, hA, hB, Prod.mk.injEq] at h
      obtain ⟨htr, hcx, hres⟩ := h
      subst htr
      subst hres
      refine ⟨?_, ?_⟩
      · rw [termCount_append, hA0]
        simpa using B.1
      · intro pre ev post hdec hterm
        refine ⟨?_, rfl⟩
        exact termLast_append (no_term_of_termCount_zero hA0) B.2.1 pre ev post hdec hterm
    | flow rq2 st2 fsm2 ctx2 =>
      have hB0 : termCount trB = 0 := B.2.2 rq2 st2 fsm2 ctx2 rfl
      have C := phaseC_term p wq1 st2 fsm2 ctx2
      rcases hC : phaseC p wq1 st2 fsm2 ctx2 with ⟨trC, outC⟩
      rw [hC] at C
      dsimp only at C
      cases outC with
      | halt cx =>
        simp only [ready, hA, hB, hC, Prod.mk.injEq] at h
        obtain ⟨htr, hcx, hres⟩ := h
        subst htr
        subst hres
        refine ⟨?_, ?_⟩
        · rw [termCount_append, termCount_append, hA0, hB0]
          simpa using C.1
        · intro pre ev post hdec hterm
          refine ⟨?_, rfl⟩
          refine termLast_append (no_term_of_termCount_zero hA0) ?_ pre ev post hdec hterm
          exact termLast_append (no_term_of_termCount_zero hB0) C.2.1
      | flow wq3 st3 fsm3 ctx3 =>
        have hC0 : termCount trC = 0 := C.2.2 wq3 st3 fsm3 ctx3 rfl
        simp only [ready, hA, hB, hC, Prod.mk.injEq] at h
        obtain ⟨htr, hcx, hres⟩ := h
        subst htr
        have h0 : termCount (trA ++ (trB ++ trC)) = 0 := by
          rw [termCount_append, termCount_append, hA0, hB0, hC0]
        refine ⟨by rw [h0]; exact Nat.zero_le 1, ?_⟩
        intro pre ev post hdec hterm
        exfalso
        have hmem : ev ∈ trA ++ (trB ++ trC) := by simp [hdec]
        have := no_term_of_termCount_zero h0 ev hmem
        rw [this] at hterm
        exact absurd hterm (by simp)

/-- Witness for C2: a concrete run whose zero-byte read fires one
`eof_received`; the theorem yields the terminal-count bound and that the
run returned `Stop`. -/
theorem c2_terminal_once_witness :
    termCount (ready unitProto ⟨true, false⟩
      ⟨[ReadRes.ok []], [], ⟨[], [], true, false⟩, ()⟩ 0).1 ≤ 1 ∧
    (ready unitProto ⟨true, false⟩
      ⟨[ReadRes.ok []], [], ⟨[], [], true, false⟩, ()⟩ 0).2.2 = Async.stop := by
  have H := c2_terminal_once unitProto ⟨true, false⟩
    ⟨[ReadRes.ok []], [], ⟨[], [], true, false⟩, ()⟩ 0
    (ready unitProto ⟨true, false⟩ ⟨[ReadRes.ok []], [], ⟨[], [], true, false⟩, ()⟩ 0).1
    (ready unitProto ⟨true, false⟩ ⟨[ReadRes.ok []], [], ⟨[], [], true, false⟩, ()⟩ 0).2.1
    (ready unitProto ⟨true, false⟩ ⟨[ReadRes.ok []], [], ⟨[], [], true, false⟩, ()⟩ 0).2.2 rfl
  refine ⟨H.1, ?_⟩
  exact (H.2 [Ev.set_readable true, Ev.read_ok []] Ev.eof_received [] (by decide) rfl).2

/-- Counterexample to claim C5 as stated.  The claim's "a flag that is
false becomes true again exactly when a fresh matching notification
arrives (writable)" fails on the code: with the cached writable flag
false, an empty outbound buffer, and an event set marking writable, the
guard `evset.is_writable() && outbuf.len() > 0` is false, so `ready`
never assigns the flag: the trace holds no `set_writable true` event
(indeed no event at all) and the returned connection still has
`writable = false`, although a fresh writable notification arrived and no
would-block was observed in that direction during the call. -/
theorem c5_flags_counterexample :
    (⟨false, true⟩ : EventSet).is_writable = true ∧
    (⟨[], [], ⟨[], [], false, false⟩, ()⟩ : Stream Unit).inner.writable = false ∧
    ready unitProto ⟨false, true⟩ ⟨[], [], ⟨[], [], false, false⟩, ()⟩ 0 =
      ([], 0, Async.cont ⟨[], [], ⟨[], [], false, false⟩, ()⟩ none) ∧
    Ev.set_writable true ∉ ([] : List Ev) := by
  refine ⟨rfl, rfl, by decide, by simp⟩

/-- Claim C5, amended: on every `ready` call that returns `Continue`, a
would-block observed in a direction leaves that direction's cached flag
false at the end of the call (so a flag is true only if no transfer
attempt in its direction reported would-block); a false writable flag is
set true only by a fresh writable notification arriving while the
outbound buffer is non-empty (and such a notification does set it); and
the readable flag ends true exactly when it was true before and no
readable notification arrived (a readable notification always re-enters
the read loop, which ends in a would-block on a `Continue` return). -/
theorem c5_flags_amended (p : Protocol σ χ) (evset : EventSet) (s : Stream σ) (ctx : χ)
    (tr : List Ev) (ctxF : χ) (s1 : Stream σ) (v : Option (Stream σ))
    (h : ready p evset s ctx = (tr, ctxF, Async.cont s1 v)) :
    (Ev.write_wb ∈ tr → s1.inner.writable = false) ∧
    (Ev.read_wb ∈ tr → s1.inner.readable = false) ∧
    (s1.inner.writable = true → s.inner.writable = true ∨
      (evset.is_writable = true ∧ s.inner.outbuf ≠ [])) ∧
    (evset.is_writable = true → s.inner.outbuf ≠ [] → Ev.set_writable true ∈ tr) ∧
    (s1.inner.readable = (!evset.is_readable && s.inner.readable)) := by
  obtain ⟨trA, trB, trC, wq1, st1, fsm1, ctx1, rq2, st2, fsm2, ctx2,
    hA, hB, hC, htr, hrq, hv⟩ := ready_cont_cases p evset s ctx tr ctxF s1 v h
  subst htr
  have FA : st1.readable = s.inner.readable ∧
      (st1.writable = true → s.inner.writable = true ∨
        (evset.is_writable = true ∧ s.inner.outbuf ≠ [])) ∧
      (Ev.write_wb ∈ trA → st1.writable = false) ∧
      (∀ e ∈ trA, wlEv e = true) ∧
      (evset.is_writable = true → s.inner.outbuf ≠ [] → Ev.set_writable true ∈ trA) := by
    by_cases hgA : evset.is_writable = true ∧ s.inner.outbuf ≠ []
    · rw [phaseA_run p evset s.wq s.inner s.fsm ctx hgA] at hA
      simp only [Prod.mk.injEq] at hA
      obtain ⟨htrA, hWL⟩ := hA
      have F := writeLoopGo_flow p s.wq { s.inner with writable := true } s.fsm ctx
        wq1 st1 fsm1 ctx1 hWL
      refine ⟨F.1, fun _ => Or.inr hgA, ?_, ?_, ?_⟩
      · intro hmem
        rw [← htrA] at hmem
        rcases List.mem_cons.mp hmem with hx | hx
        · exact absurd hx (by simp)
        · exact F.2.2.2 hx
      · intro e he
        rw [← htrA] at he
        rcases List.mem_cons.mp he with rfl | hx
        · rfl
        · exact writeLoopGo_events p s.wq { s.inner with writable := true } s.fsm ctx e hx
      · intro h1 h2
        rw [← htrA]
        simp
    · rw [phaseA_skip p evset s.wq s.inner s.fsm ctx hgA] at hA
      simp only [Prod.mk.injEq] at hA
      obtain ⟨htrA, hfl⟩ := hA
      injection hfl with e1 e2 e3 e4
      subst e2
      refine ⟨rfl, fun hw => Or.inl hw, ?_, ?_, ?_⟩
      · intro hmem
        rw [← htrA] at hmem
        simp at hmem
      · intro e he
        rw [← htrA] at he
        simp at he
      · intro h1 h2
        exact absurd ⟨h1, h2⟩ hgA
  have FB : st2.writable = st1.writable ∧
      (evset.is_readable = true → st2.readable = false) ∧
      (evset.is_readable = false → st2.readable = st1.readable) ∧
      (∀ e ∈ trB, rlEv e = true) ∧
      (trB = [] ∨ evset.is_readable = true) := by
    cases hrd : evset.is_readable
    · rw [phaseB_skip p evset s.rq st1 fsm1 ctx1 hrd] at hB
      simp only [Prod.mk.injEq] at hB
      obtain ⟨htrB, hfl⟩ := hB
      injection hfl with e1 e2 e3 e4
      subst e2
      refine ⟨rfl, ?_, fun _ => rfl, ?_, Or.inl htrB.symm⟩
      · intro hx
        exact absurd hx (by simp)
      · intro e he
        rw [← htrB] at he
        simp at he
    · rw [phaseB_run p evset s.rq st1 fsm1 ctx1 hrd] at hB
      simp only [Prod.mk.injEq] at hB
      obtain ⟨htrB, hfl⟩ := hB
      have F := readLoopGo_flow p s.rq { st1 with readable := true } fsm1 ctx1
        rq2 st2 fsm2 ctx2 hfl
      refine ⟨F.1, fun _ => F.2, ?_, ?_, Or.inr rfl⟩
      · intro hx
        exact absurd hx (by simp)
      · intro e he
        rw [← htrB] at he
        rcases List.mem_cons.mp he with rfl | hx
        · rfl
        · exact readLoopGo_events p s.rq { st1 with readable := true } fsm1 ctx1 e hx
  have FC : s1.inner.readable = st2.readable ∧
      (s1.inner.writable = true → st2.writable = true) ∧
      (Ev.write_wb ∈ trC → s1.inner.writable = false) ∧
      (∀ e ∈ trC, wlEv e = true) ∧
      (st2.writable = false → s1.inner = st2) := by
    by_cases hgC : st2.writable = true ∧ st2.outbuf ≠ []
    · rw [phaseC_run p wq1 st2 fsm2 ctx2 hgC] at hC
      have htrC : (writeLoopGo p wq1 st2 fsm2 ctx2).1 = trC := congrArg Prod.fst hC
      have hfl : (writeLoopGo p wq1 st2 fsm2 ctx2).2 =
          WOut.flow s1.wq s1.inner s1.fsm ctxF := congrArg Prod.snd hC
      have F := writeLoopGo_flow p wq1 st2 fsm2 ctx2 s1.wq s1.inner s1.fsm ctxF hfl
      refine ⟨F.1, F.2.1, ?_, ?_, ?_⟩
      · intro hmem
        rw [← htrC] at hmem
        exact F.2.2.2 hmem
      · intro e he
        rw [← htrC] at he
        exact writeLoopGo_events p wq1 st2 fsm2 ctx2 e he
      · intro hwf
        exact absurd (hwf ▸ hgC.1) (by simp)
    · rw [phaseC_skip p wq1 st2 fsm2 ctx2 hgC] at hC
      simp only [Prod.mk.injEq] at hC
      obtain ⟨htrC, hfl⟩ := hC
      injection hfl with e1 e2 e3 e4
      refine ⟨by rw [← e2], ?_, ?_, ?_, fun _ => e2.symm⟩
      · intro hx
        rw [← e2] at hx
        exact hx
      · intro hmem
        rw [← htrC] at hmem
        simp at hmem
      · intro e he
        rw [← htrC] at he
        simp at he
  refine ⟨?_, ?_, ?_, ?_, ?_⟩
  · intro hmem
    rcases List.mem_append.mp hmem with hx | hx
    · have h1 : st1.writable = false := FA.2.2.1 hx
      have h2 : st2.writable = false := by rw [FB.1, h1]
      have h3 := FC.2.2.2.2 h2
      rw [h3, h2]
    · rcases List.mem_append.mp hx with hy | hy
      · exact absurd rfl (rl_no_write_wb (FB.2.2.2.1 _ hy))
      · exact FC.2.2.1 hy
  · intro hmem
    rcases List.mem_append.mp hmem with hx | hx
    · exact absurd rfl (wl_no_read_wb (FA.2.2.2.1 _ hx))
    · rcases List.mem_append.mp hx with hy | hy
      · rcases FB.2.2.2.2 with hz | hz
        · rw [hz] at hy
          simp at hy
        · rw [FC.1]
          exact FB.2.1 hz
      · exact absurd rfl (wl_no_read_wb (FC.2.2.2.1 _ hy))
  · intro hw
    exact FA.2.1 (by rw [← FB.1]; exact FC.2.1 hw)
  · intro h1 h2
    exact List.mem_append.mpr (Or.inl (FA.2.2.2.2 h1 h2))
  · cases hrd : evset.is_readable
    · rw [FC.1, FB.2.2.1 hrd, FA.1]
      simp
    · rw [FC.1, FB.2.1 hrd]
      simp

/-- Witness for the amended C5 at a concrete run: the writable flag
survives a fully drained flush, the readable flag ends false after the
readable notification, and the `set_writable true` assignment is in the
trace. -/
theorem c5_flags_amended_witness :
    ((⟨[], [], ⟨[1, 2], [], true, false⟩, ()⟩ : Stream Unit).inner.writable = true →
      (⟨[], [5], true, false⟩ : Inner).writable = true ∨
        ((⟨true, true⟩ : EventSet).is_writable = true ∧
          (⟨[], [5], true, false⟩ : Inner).outbuf ≠ [])) ∧
    Ev.set_writable true ∈
      [Ev.set_writable true, Ev.write_ok 1, Ev.data_transferred ⟨[], []⟩ ⟨[], []⟩,
       Ev.set_readable true, Ev.read_ok [1, 2], Ev.data_received ⟨[1, 2], []⟩ ⟨[1, 2], []⟩,
       Ev.read_wb, Ev.set_readable false] ∧
    (⟨[], [], ⟨[1, 2], [], true, false⟩, ()⟩ : Stream Unit).inner.readable =
      (!(⟨true, true⟩ : EventSet).is_readable &&
        (⟨[], [5], true, false⟩ : Inner).readable) := by
  have H := c5_flags_amended unitProto ⟨true, true⟩
    ⟨[ReadRes.ok [1, 2], ReadRes.wouldBlock], [WriteRes.ok 1], ⟨[], [5], true, false⟩, ()⟩ 0
    [Ev.set_writable true, Ev.write_ok 1, Ev.data_transferred ⟨[], []⟩ ⟨[], []⟩,
     Ev.set_readable true, Ev.read_ok [1, 2], Ev.data_received ⟨[1, 2], []⟩ ⟨[1, 2], []⟩,
     Ev.read_wb, Ev.set_readable false] 0
    ⟨[], [], ⟨[1, 2], [], true, false⟩, ()⟩ none (by decide)
  exact ⟨H.2.2.1, H.2.2.2.1 rfl (by decide), H.2.2.2.2⟩

lemma phaseA_replay (p : Protocol σ χ) (evset : EventSet) (wq : List WriteRes)
    (st : Inner) (fsm : σ) (ctx : χ) :
    DataOk st.transport (phaseA p evset wq st fsm ctx).1 ∧
    (∀ wq1 st1 fsm1 ctx1,
      (phaseA p evset wq st fsm ctx).2 = WOut.flow wq1 st1 fsm1 ctx1 →
      st1.transport = replay st.transport (phaseA p evset wq st fsm ctx).1) := by
  by_cases hg : evset.is_writable = true ∧ st.outbuf ≠ []
  · rw [phaseA_run p evset wq st fsm ctx hg]
    have W := writeLoopGo_replay p wq { st with writable := true } fsm ctx
    dsimp only
    constructor
    · refine dataOk_cons ?_ ?_
      · intro s1 a hh
        rcases hh with hh | hh <;> simp at hh
      · exact W.1
    · intro a b c d hfl
      have := W.2 a b c d hfl
      simpa [replay, stepEv] using this
  · rw [phaseA_skip p evset wq st fsm ctx hg]
    refine ⟨dataOk_nil _, ?_⟩
    intro a b c d hfl
    dsimp only at hfl
    injection hfl with e1 e2 e3 e4
    subst e2
    simp [replay]

lemma phaseB_replay (p : Protocol σ χ) (evset : EventSet) (rq : List ReadRes)
    (st : Inner) (fsm : σ) (ctx : χ) :
    DataOk st.transport (phaseB p evset rq st fsm ctx).1 ∧
    (∀ rq1 st1 fsm1 ctx1,
      (phaseB p evset rq st fsm ctx).2 = ROut.flow rq1 st1 fsm1 ctx1 →
      st1.transport = replay st.transport (phaseB p evset rq st fsm ctx).1) := by
  cases hrd : evset.is_readable
  · rw [phaseB_skip p evset rq st fsm ctx hrd]
    refine ⟨dataOk_nil _, ?_⟩
    intro a b c d hfl
    dsimp only at hfl
    injection hfl with e1 e2 e3 e4
    subst e2
    simp [replay]
  · rw [phaseB_run p evset rq st fsm ctx hrd]
    have W := readLoopGo_replay p rq { st with readable := true } fsm ctx
    dsimp only
    constructor
    · refine dataOk_cons ?_ ?_
      · intro s1 a hh
        rcases hh with hh | hh <;> simp at hh
      · exact W.1
    · intro a b c d hfl
      have := W.2 a b c d hfl
      simpa [replay, stepEv] using this

lemma phaseC_replay (p : Protocol σ χ) (wq : List WriteRes)
    (st : Inner) (fsm : σ) (ctx : χ) :
    DataOk st.transport (phaseC p wq st fsm ctx).1 ∧
    (∀ wq1 st1 fsm1 ctx1,
      (phaseC p wq st fsm ctx).2 = WOut.flow wq1 st1 fsm1 ctx1 →
      st1.transport = replay st.transport (phaseC p wq st fsm ctx).1) := by
  by_cases hg : st.writable = true ∧ st.outbuf ≠ []
  · rw [phaseC_run p wq st fsm ctx hg]
    exact writeLoopGo_replay p wq st fsm ctx
  · rw [phaseC_skip p wq st fsm ctx hg]
    refine ⟨dataOk_nil _, ?_⟩
    intro a b c d hfl
    dsimp only at hfl
    injection hfl with e1 e2 e3 e4
    subst e2
    simp [replay]

/-- Claim C10: the protocol is never handed direct socket access.  In the
embedding the data callbacks' types take only a `Transport` and the
context; this theorem shows, for every `ready` call, that each
`data_received` / `data_transferred` invocation observes exactly the
transport obtained by replaying the preceding trace events — the core's
own transfers plus the transports earlier callbacks returned — starting
from the connection's two buffers, so the view handed to the protocol is
constructed from the buffers and nothing else; on `Continue`, the final
buffers are the replay of the whole trace. -/
theorem c10_transport_only (p : Protocol σ χ) (evset : EventSet) (s : Stream σ) (ctx : χ)
    (tr : List Ev) (ctxF : χ) (res : Async (Stream σ) (Option (Stream σ)))
    (h : ready p evset s ctx = (tr, ctxF, res)) :
    DataOk s.inner.transport tr ∧
    (∀ s1 v, res = Async.cont s1 v →
      s1.inner.transport = replay s.inner.transport tr) := by
  have A := phaseA_replay p evset s.wq s.inner s.fsm ctx
  rcases hA : phaseA p evset s.wq s.inner s.fsm ctx with ⟨trA, outA⟩
  rw [hA] at A
  dsimp only at A
  cases outA with
  | halt cx =>
    simp only [ready, hA, Prod.mk.injEq] at h
    obtain ⟨htr, hcx, hres⟩ := h
    subst htr
    subst hres
    refine ⟨A.1, ?_⟩
    intro s1 v hv
    simp at hv
  | flow wq1 st1 fsm1 ctx1 =>
    have hA1 : st1.transport = replay s.inner.transport trA := A.2 wq1 st1 fsm1 ctx1 rfl
    have B := phaseB_replay p evset s.rq st1 fsm1 ctx1
    rcases hB : phaseB p evset s.rq st1 fsm1 ctx1 with ⟨trB, outB⟩
    rw [hB] at B
    dsimp only at B
    cases outB with
    | halt cx =>
      simp only [ready, hA, hB, Prod.mk.injEq] at h
      obtain ⟨htr, hcx, hres⟩ := h
      subst htr
      subst hres
      refine ⟨?_, ?_⟩
      · refine dataOk_append A.1 ?_
        rw [← hA1]
        exact B.1
      · intro s1 v hv
        simp at hv
    | flow rq2 st2 fsm2 ctx2 =>
      have hB1 : st2.transport = replay st1.transport trB := B.2 rq2 st2 fsm2 ctx2 rfl
      have C := phaseC_replay p wq1 st2 fsm2 ctx2
      rcases hC : phaseC p wq1 st2 fsm2 ctx2 with ⟨trC, outC⟩
      rw [hC] at C
      dsimp only at C
      have hdat : DataOk s.inner.transport (trA ++ (trB ++ trC)) := by
        refine dataOk_append A.1 (dataOk_append ?_ ?_)
        · rw [← hA1]
          exact B.1
        · rw [← hA1, ← hB1]
          exact C.1
      cases outC with
      | halt cx =>
        simp only [ready, hA, hB, hC, Prod.mk.injEq] at h
        obtain ⟨htr, hcx, hres⟩ := h
        subst htr
        subst hres
        refine ⟨hdat, ?_⟩
        intro s1 v hv
        simp at hv
      | flow wq3 st3 fsm3 ctx3 =>
        have hC1 : st3.transport = replay st2.transport trC := C.2 wq3 st3 fsm3 ctx3 rfl
        simp only [ready, hA, hB, hC, Prod.mk.injEq] at h
        obtain ⟨htr, hcx, hres⟩ := h
        subst htr
        refine ⟨hdat, ?_⟩
        intro s1 v hv
        rw [← hres] at hv
        injection hv with hs hv2
        subst hs
        rw [replay_append, replay_append, ← hA1, ← hB1]
        exact hC1

/-- Witness for C10 at a concrete run: the transport the `data_received`
invocation observed equals the replay of the preceding trace. -/
theorem c10_transport_only_witness :
    (⟨[1, 2], []⟩ : Transport) =
      replay ⟨[], [5]⟩
        [Ev.set_writable true, Ev.write_ok 1, Ev.data_transferred ⟨[], []⟩ ⟨[], []⟩,
         Ev.set_readable true, Ev.read_ok [1, 2]] := by
  have H := c10_transport_only unitProto ⟨true, true⟩
    ⟨[ReadRes.ok [1, 2], ReadRes.wouldBlock], [WriteRes.ok 1], ⟨[], [5], true, false⟩, ()⟩ 0
    [Ev.set_writable true, Ev.write_ok 1, Ev.data_transferred ⟨[], []⟩ ⟨[], []⟩,
     Ev.set_readable true, Ev.read_ok [1, 2], Ev.data_received ⟨[1, 2], []⟩ ⟨[1, 2], []⟩,
     Ev.read_wb, Ev.set_readable false] 0
    (Async.cont ⟨[], [], ⟨[1, 2], [], true, false⟩, ()⟩ none) (by decide)
  exact H.1 [Ev.set_writable true, Ev.write_ok 1, Ev.data_transferred ⟨[], []⟩ ⟨[], []⟩,
    Ev.set_readable true, Ev.read_ok [1, 2]] ⟨[1, 2], []⟩ ⟨[1, 2], []⟩
    [Ev.read_wb, Ev.set_readable false] (Or.inl rfl)

lemma readTotal_append (a b : List Ev) :
    readTotal (a ++ b) = readTotal a + readTotal b := by
  simp [readTotal, readBytes_append]

lemma wl_trace_facts {tr : List Ev} (h : ∀ e ∈ tr, wlEv e = true) :
    (∀ e ∈ tr, isDrEv e = false) ∧ consumedTotal tr = 0 ∧ readBytes tr = [] := by
  have h1 : ∀ e ∈ tr, isDrEv e = false := fun e he => wl_no_dr (h e he)
  have h2 : ∀ e ∈ tr, isRdOkEv e = false := fun e he => wl_no_read_ok (h e he)
  exact ⟨h1, consumedTotal_zero_of_no_dr h1, readBytes_nil_of_no_read_ok h2⟩

lemma phaseA_events (p : Protocol σ χ) (evset : EventSet) (wq : List WriteRes)
    (st : Inner) (fsm : σ) (ctx : χ) :
    ∀ e ∈ (phaseA p evset wq st fsm ctx).1, wlEv e = true := by
  by_cases hg : evset.is_writable = true ∧ st.outbuf ≠ []
  · rw [phaseA_run p evset wq st fsm ctx hg]
    dsimp only
    intro e he
    rcases List.mem_cons.mp he with rfl | hx
    · rfl
    · exact writeLoopGo_events p wq { st with writable := true } fsm ctx e hx
  · rw [phaseA_skip p evset wq st fsm ctx hg]
    intro e he
    simp at he

lemma phaseC_events (p : Protocol σ χ) (wq : List WriteRes)
    (st : Inner) (fsm : σ) (ctx : χ) :
    ∀ e ∈ (phaseC p wq st fsm ctx).1, wlEv e = true := by
  by_cases hg : st.writable = true ∧ st.outbuf ≠ []
  · rw [phaseC_run p wq st fsm ctx hg]
    exact writeLoopGo_events p wq st fsm ctx
  · rw [phaseC_skip p wq st fsm ctx hg]
    intro e he
    simp at he

lemma phaseA_inbuf (p : Protocol σ χ)
    (Ht : ∀ fsm t c, (p.data_transferred fsm t c).trans.inbuf = t.inbuf)
    (evset : EventSet) (wq : List WriteRes) (st : Inner) (fsm : σ) (ctx : χ) :
    ∀ wq1 st1 fsm1 ctx1,
      (phaseA p evset wq st fsm ctx).2 = WOut.flow wq1 st1 fsm1 ctx1 →
      st1.inbuf = st.inbuf := by
  intro wq1 st1 fsm1 ctx1 hfl
  by_cases hg : evset.is_writable = true ∧ st.outbuf ≠ []
  · rw [phaseA_run p evset wq st fsm ctx hg] at hfl
    dsimp only at hfl
    exact writeLoopGo_inbuf p Ht wq { st with writable := true } fsm ctx wq1 st1 fsm1 ctx1 hfl
  · rw [phaseA_skip p evset wq st fsm ctx hg] at hfl
    dsimp only at hfl
    injection hfl with e1 e2 e3 e4
    subst e2
    rfl

lemma phaseC_inbuf (p : Protocol σ χ)
    (Ht : ∀ fsm t c, (p.data_transferred fsm t c).trans.inbuf = t.inbuf)
    (wq : List WriteRes) (st : Inner) (fsm : σ) (ctx : χ) :
    ∀ wq1 st1 fsm1 ctx1,
      (phaseC p wq st fsm ctx).2 = WOut.flow wq1 st1 fsm1 ctx1 →
      st1.inbuf = st.inbuf := by
  intro wq1 st1 fsm1 ctx1 hfl
  by_cases hg : st.writable = true ∧ st.outbuf ≠ []
  · rw [phaseC_run p wq st fsm ctx hg] at hfl
    exact writeLoopGo_inbuf p Ht wq st fsm ctx wq1 st1 fsm1 ctx1 hfl
  · rw [phaseC_skip p wq st fsm ctx hg] at hfl
    dsimp only at hfl
    injection hfl with e1 e2 e3 e4
    subst e2
    rfl

lemma phaseB_chain (p : Protocol σ χ)
    (Hr : ∀ fsm t c, (p.data_received fsm t c).trans.inbuf <:+ t.inbuf)
    (evset : EventSet) (rq : List ReadRes) (st : Inner) (fsm : σ) (ctx : χ) :
    RecvChain st.inbuf (phaseB p evset rq st fsm ctx).1 ∧
    (∀ rq1 st1 fsm1 ctx1,
      (phaseB p evset rq st fsm ctx).2 = ROut.flow rq1 st1 fsm1 ctx1 →
      st1.inbuf.length + consumedTotal (phaseB p evset rq st fsm ctx).1 =
        st.inbuf.length + readTotal (phaseB p evset rq st fsm ctx).1) := by
  cases hrd : evset.is_readable
  · rw [phaseB_skip p evset rq st fsm ctx hrd]
    refine ⟨recvChain_of_no_dr (by intro e he; simp at he), ?_⟩
    intro a b c d hfl
    dsimp only at hfl
    injection hfl with e1 e2 e3 e4
    subst e2
    rfl
  · rw [phaseB_run p evset rq st fsm ctx hrd]
    have R := readLoopGo_chain p Hr rq { st with readable := true } fsm ctx
    dsimp only
    constructor
    · exact recvChain_cons_neutral rfl (fun l => rfl) (fun l => rfl) R.1
    · intro a b c d hfl
      have hacc := R.2 a b c d hfl
      have hcons : consumedTotal (Ev.set_readable true ::
          (readLoopGo p rq { st with readable := true } fsm ctx).1) =
          consumedTotal (readLoopGo p rq { st with readable := true } fsm ctx).1 := rfl
      have hread : readTotal (Ev.set_readable true ::
          (readLoopGo p rq { st with readable := true } fsm ctx).1) =
          readTotal (readLoopGo p rq { st with readable := true } fsm ctx).1 := rfl
      rw [hcons, hread]
      exact hacc

/-- Claim C1: byte accounting of the read path.  Under the protocol
contract — `data_received` only consumes a front prefix of the inbound
buffer (its returned inbound buffer is a suffix of the observed one) and
`data_transferred` leaves the inbound buffer alone — every `ready` call
satisfies: each `data_received` invocation observes exactly the initial
inbound bytes plus the bytes the socket read-transfers reported so far
minus the bytes consumed so far (the observed buffer is the suffix of
initial-plus-transferred whose length is initial plus transferred minus
consumed, so no byte is lost and none is delivered twice), and on
`Continue` the final inbound length plus total consumed equals initial
length plus total transferred. -/
theorem c1_read_accounting (p : Protocol σ χ)
    (Hr : ∀ fsm t c, (p.data_received fsm t c).trans.inbuf <:+ t.inbuf)
    (Ht : ∀ fsm t c, (p.data_transferred fsm t c).trans.inbuf = t.inbuf)
    (evset : EventSet) (s : Stream σ) (ctx : χ)
    (tr : List Ev) (ctxF : χ) (res : Async (Stream σ) (Option (Stream σ)))
    (h : ready p evset s ctx = (tr, ctxF, res)) :
    RecvChain s.inner.inbuf tr ∧
    (∀ s1 v, res = Async.cont s1 v →
      s1.inner.inbuf.length + consumedTotal tr = s.inner.inbuf.length + readTotal tr) := by
  have Aev := phaseA_events p evset s.wq s.inner s.fsm ctx
  have Ain := phaseA_inbuf p Ht evset s.wq s.inner s.fsm ctx
  rcases hA : phaseA p evset s.wq s.inner s.fsm ctx with ⟨trA, outA⟩
  rw [hA] at Aev Ain
  dsimp only at Aev Ain
  obtain ⟨AnoDr, Acons, Aread⟩ := wl_trace_facts Aev
  cases outA with
  | halt cx =>
    simp only [ready, hA, Prod.mk.injEq] at h
    obtain ⟨htr, hcx, hres⟩ := h
    subst htr
    subst hres
    refine ⟨recvChain_of_no_dr AnoDr, ?_⟩
    intro s1 v hv
    simp at hv
  | flow wq1 st1 fsm1 ctx1 =>
    have hA1 : st1.inbuf = s.inner.inbuf := Ain wq1 st1 fsm1 ctx1 rfl
    have B := phaseB_chain p Hr evset s.rq st1 fsm1 ctx1
    rcases hB : phaseB p evset s.rq st1 fsm1 ctx1 with ⟨trB, outB⟩
    rw [hB] at B
    dsimp only at B
    have BchainS : RecvChain s.inner.inbuf trB := by
      rw [← hA1]
      exact B.1
    cases outB with
    | halt cx =>
      simp only [ready, hA, hB, Prod.mk.injEq] at h
      obtain ⟨htr, hcx, hres⟩ := h
      subst htr
      subst hres
      refine ⟨recvChain_prepend AnoDr Acons Aread BchainS, ?_⟩
      intro s1 v hv
      simp at hv
    | flow rq2 st2 fsm2 ctx2 =>
      have hB1 : st2.inbuf.length + consumedTotal trB = st1.inbuf.length + readTotal trB :=
        B.2 rq2 st2 fsm2 ctx2 rfl
      have Cev := phaseC_events p wq1 st2 fsm2 ctx2
      have Cin := phaseC_inbuf p Ht wq1 st2 fsm2 ctx2
      rcases hC : phaseC p wq1 st2 fsm2 ctx2 with ⟨trC, outC⟩
      rw [hC] at Cev Cin
      dsimp only at Cev Cin
      obtain ⟨CnoDr, Ccons, Cread⟩ := wl_trace_facts Cev
      have chainAll : RecvChain s.inner.inbuf (trA ++ (trB ++ trC)) :=
        recvChain_prepend AnoDr Acons Aread (recvChain_append_nr BchainS CnoDr)
      cases outC with
      | halt cx =>
        simp only [ready, hA, hB, hC, Prod.mk.injEq] at h
        obtain ⟨htr, hcx, hres⟩ := h
        subst htr
        subst hres
        refine ⟨chainAll, ?_⟩
        intro s1 v hv
        simp at hv
      | flow wq3 st3 fsm3 ctx3 =>
        have hC1 : st3.inbuf = st2.inbuf := Cin wq3 st3 fsm3 ctx3 rfl
        simp only [ready, hA, hB, hC, Prod.mk.injEq] at h
        obtain ⟨htr, hcx, hres⟩ := h
        subst htr
        refine ⟨chainAll, ?_⟩
        intro s1 v hv
        rw [← hres] at hv
        injection hv with hs hv2
        subst hs
        have e1 : consumedTotal (trA ++ (trB ++ trC)) = consumedTotal trB := by
          rw [consumedTotal_append, consumedTotal_append, Acons, Ccons]
          omega
        have e2 : readTotal (trA ++ (trB ++ trC)) = readTotal trB := by
          rw [readTotal_append, readTotal_append]
          have hAd : readTotal trA = 0 := by simp [readTotal, Aread]
          have hCd : readTotal trC = 0 := by simp [readTotal, Cread]
          omega
        rw [e1, e2]
        dsimp only
        rw [hC1, ← hA1]
        exact hB1

/-- Witness for C1 at a concrete run: `unitProto` consumes nothing, the
run transfers two bytes, and the final inbound length satisfies the
accounting identity. -/
theorem c1_read_accounting_witness :
    (⟨[], [], ⟨[1, 2], [], true, false⟩, ()⟩ : Stream Unit).inner.inbuf.length +
      consumedTotal
        [Ev.set_writable true, Ev.write_ok 1, Ev.data_transferred ⟨[], []⟩ ⟨[], []⟩,
         Ev.set_readable true, Ev.read_ok [1, 2], Ev.data_received ⟨[1, 2], []⟩ ⟨[1, 2], []⟩,
         Ev.read_wb, Ev.set_readable false] =
    ([] : List Nat).length +
      readTotal
        [Ev.set_writable true, Ev.write_ok 1, Ev.data_transferred ⟨[], []⟩ ⟨[], []⟩,
         Ev.set_readable true, Ev.read_ok [1, 2], Ev.data_received ⟨[1, 2], []⟩ ⟨[1, 2], []⟩,
         Ev.read_wb, Ev.set_readable false] := by
  have H := c1_read_accounting unitProto
    (fun fsm t c => List.suffix_refl _)
    (fun fsm t c => rfl)
    ⟨true, true⟩
    ⟨[ReadRes.ok [1, 2], ReadRes.wouldBlock], [WriteRes.ok 1], ⟨[], [5], true, false⟩, ()⟩ 0
    [Ev.set_writable true, Ev.write_ok 1, Ev.data_transferred ⟨[], []⟩ ⟨[], []⟩,
     Ev.set_readable true, Ev.read_ok [1, 2], Ev.data_received ⟨[1, 2], []⟩ ⟨[1, 2], []⟩,
     Ev.read_wb, Ev.set_readable false] 0
    (Async.cont ⟨[], [], ⟨[1, 2], [], true, false⟩, ()⟩ none) (by decide)
  exact H.2 ⟨[], [], ⟨[1, 2], [], true, false⟩, ()⟩ none rfl

/-- Counterexample to claim C8 as stated.  The claim says the cached
writable flag keeps the value it had before the read loop in every
`ready` call whose read loop does some successful partial reads and then
observes a would-block.  With `pushProto` (whose `data_received` appends
output), a readable-only event set, `writable = true` and an empty
outbound buffer, the read loop reads one byte and would-blocks — yet
phase C then runs on the newly produced output, its write attempt
would-blocks, and the call returns `Continue` with `writable = false`,
different from the `true` it had before the read loop. -/
theorem c8_wouldblock_counterexample :
    ready pushProto ⟨true, false⟩
        ⟨[ReadRes.ok [1], ReadRes.wouldBlock], [WriteRes.wouldBlock],
          ⟨[], [], true, false⟩, ()⟩ 0 =
      ([Ev.set_readable true, Ev.read_ok [1], Ev.data_received ⟨[1], []⟩ ⟨[1], [9]⟩,
        Ev.read_wb, Ev.set_readable false, Ev.write_wb, Ev.set_writable false], 0,
       Async.cont ⟨[], [], ⟨[1], [9], false, false⟩, ()⟩ none) ∧
    (⟨[], [], ⟨[], [], true, false⟩, ()⟩ : Stream Unit).inner.writable = true ∧
    (⟨[], [], ⟨[1], [9], false, false⟩, ()⟩ : Stream Unit).inner.writable = false := by
  refine ⟨by decide, rfl, rfl⟩

/-- Claim C8, amended: the scenario additionally requires that the
protocol appends no output during `data_received` (and, as the scenario
implies, never stops and only consumes a front prefix), and that the
event set is readable-only with an empty outbound buffer — so phase C
does not run.  Then a read loop of successful partial reads totaling `N`
bytes followed by a would-block leaves the cached readable flag false,
the cached writable flag exactly as before, the call continuing with no
terminal callback, and the inbound buffer holding exactly `N` minus the
bytes consumed by the `data_received` invocations of the call. -/
theorem c8_wouldblock_amended (p : Protocol σ χ)
    (Hr : ∀ fsm t c, (p.data_received fsm t c).trans.inbuf <:+ t.inbuf)
    (Hout : ∀ fsm t c, (p.data_received fsm t c).trans.outbuf = t.outbuf)
    (Hcont : ∀ fsm t c, (p.data_received fsm t c).next ≠ Async.stop)
    (evset : EventSet) (s : Stream σ) (ctx : χ)
    (chunks : List (List Nat)) (rest : List ReadRes)
    (her : evset.is_readable = true) (hew : evset.is_writable = false)
    (ho : s.inner.outbuf = [])
    (hrq : s.rq = chunks.map ReadRes.ok ++ ReadRes.wouldBlock :: rest)
    (hch : ∀ c ∈ chunks, c ≠ []) :
    ∃ tr ctxF s1,
      ready p evset s ctx = (tr, ctxF, Async.cont s1 none) ∧
      s1.inner.readable = false ∧
      s1.inner.writable = s.inner.writable ∧
      s1.inner.outbuf = [] ∧
      s1.rq = rest ∧
      termCount tr = 0 ∧
      readBytes tr = chunks.flatten ∧
      s1.inner.inbuf.length + consumedTotal tr =
        s.inner.inbuf.length + (chunks.flatten).length := by
  have hA : phaseA p evset s.wq s.inner s.fsm ctx = ([], .flow s.wq s.inner s.fsm ctx) :=
    phaseA_skip _ _ _ _ _ _ (by simp [hew])
  obtain ⟨stB, fsmB, ctxB, hRL2, hRB⟩ :=
    readLoopGo_chunks p Hcont chunks rest { s.inner with readable := true } s.fsm ctx hch
  have hB : phaseB p evset s.rq s.inner s.fsm ctx =
      (Ev.set_readable true ::
        (readLoopGo p (chunks.map ReadRes.ok ++ ReadRes.wouldBlock :: rest)
          { s.inner with readable := true } s.fsm ctx).1,
       ROut.flow rest stB fsmB ctxB) := by
    rw [phaseB_run p evset s.rq s.inner s.fsm ctx her, hrq, hRL2]
  have Fflow := readLoopGo_flow p (chunks.map ReadRes.ok ++ ReadRes.wouldBlock :: rest)
    { s.inner with readable := true } s.fsm ctx rest stB fsmB ctxB hRL2
  have Fout := readLoopGo_outbuf p Hout (chunks.map ReadRes.ok ++ ReadRes.wouldBlock :: rest)
    { s.inner with readable := true } s.fsm ctx rest stB fsmB ctxB hRL2
  have Fterm := (readLoopGo_term p (chunks.map ReadRes.ok ++ ReadRes.wouldBlock :: rest)
    { s.inner with readable := true } s.fsm ctx).2.2 rest stB fsmB ctxB hRL2
  have Fchain := (readLoopGo_chain p Hr (chunks.map ReadRes.ok ++ ReadRes.wouldBlock :: rest)
    { s.inner with readable := true } s.fsm ctx).2 rest stB fsmB ctxB hRL2
  have houtB : stB.outbuf = [] := by
    rw [Fout]
    exact ho
  have hC : phaseC p s.wq stB fsmB ctxB = ([], .flow s.wq stB fsmB ctxB) :=
    phaseC_skip _ _ _ _ _ (by simp [houtB])
  refine ⟨Ev.set_readable true ::
      (readLoopGo p (chunks.map ReadRes.ok ++ ReadRes.wouldBlock :: rest)
        { s.inner with readable := true } s.fsm ctx).1,
    ctxB, ⟨rest, s.wq, stB, fsmB⟩, ?_, Fflow.2, Fflow.1, houtB, rfl, ?_, ?_, ?_⟩
  · simp only [ready, hA, hB, hC]
    simp
  · rw [termCount_set_readable]
    exact Fterm
  · exact hRB
  · have hrt : readTotal (readLoopGo p (chunks.map ReadRes.ok ++ ReadRes.wouldBlock :: rest)
        { s.inner with readable := true } s.fsm ctx).1 = (chunks.flatten).length := by
      simp only [readTotal, hRB]
    have hx : stB.inbuf.length + consumedTotal
        (readLoopGo p (chunks.map ReadRes.ok ++ ReadRes.wouldBlock :: rest)
          { s.inner with readable := true } s.fsm ctx).1 =
        s.inner.inbuf.length + (chunks.flatten).length := by
      rw [← hrt]
      exact Fchain
    exact hx

/-- Witness for the amended C8: two partial reads totaling three bytes,
then a would-block; `unitProto` consumes nothing and appends nothing, so
the inbound buffer ends holding all three bytes and the writable flag is
untouched. -/
theorem c8_wouldblock_amended_witness :
    ∃ tr ctxF s1,
      ready unitProto ⟨true, false⟩
          ⟨[ReadRes.ok [1], ReadRes.ok [2, 3], ReadRes.wouldBlock], [],
            ⟨[], [], true, false⟩, ()⟩ 0 =
        (tr, ctxF, Async.cont s1 none) ∧
      s1.inner.readable = false ∧
      s1.inner.writable =
        (⟨[], [], ⟨[], [], true, false⟩, ()⟩ : Stream Unit).inner.writable ∧
      s1.inner.outbuf = [] ∧
      s1.rq = [] ∧
      termCount tr = 0 ∧
      readBytes tr = ([[1], [2, 3]] : List (List Nat)).flatten ∧
      s1.inner.inbuf.length + consumedTotal tr =
        ([] : List Nat).length + (([[1], [2, 3]] : List (List Nat)).flatten).length :=
  c8_wouldblock_amended unitProto
    (fun fsm t c => List.suffix_refl _)
    (fun fsm t c => rfl)
    (fun fsm t c h => Async.noConfusion h)
    ⟨true, false⟩
    ⟨[ReadRes.ok [1], ReadRes.ok [2, 3], ReadRes.wouldBlock], [], ⟨[], [], true, false⟩, ()⟩ 0
    [[1], [2, 3]] []
    rfl rfl rfl rfl (by decide)

end Rotor
